import Mathlib

/-
Shallow embedding of the QS2 cipher and its chosen-plaintext cracker
(src/qs2.py).  Strings are modelled as `List Char`; Python runtime errors
(IndexError, ValueError, KeyError) are modelled with an explicit error type.
-/

set_option maxHeartbeats 1000000

namespace QS2

/-- The fixed alphabet `cipher.alphabet = 'abcdefghijklmnopqrstuvwxyz_'`. -/
def alphabet : List Char := "abcdefghijklmnopqrstuvwxyz_".toList

/-- `cipher.blocksize = 3`. -/
def blocksize : Nat := 3

/-- Python runtime errors that the modelled code can raise, plus an artificial
`fuel` marker used by the embedding of the (in Python unbounded) recursion of
the deduction engine. -/
inductive Err where
  | oob
  | value
  | keyError
  | fuel
  deriving DecidableEq, Repr

instance instDecEqExcept {ε α : Type} [DecidableEq ε] [DecidableEq α] :
    DecidableEq (Except ε α) := fun a b => by
  cases a with
  | error e1 =>
    cases b with
    | error e2 => exact decidable_of_iff (e1 = e2) (by simp)
    | ok v2 => exact isFalse (fun hc => Except.noConfusion hc)
  | ok v1 =>
    cases b with
    | error e2 => exact isFalse (fun hc => Except.noConfusion hc)
    | ok v2 => exact decidable_of_iff (v1 = v2) (by simp)

/-- Python `seq[i]` for a nonnegative index: IndexError when out of bounds. -/
def listAt (l : List Char) (i : Nat) : Except Err Char :=
  if h : i < l.length then .ok l[i] else .error .oob

/-- `self.alphabet.index(c)`: ValueError when `c` is not in the alphabet. -/
def alphaIndex1 (c : Char) : Except Err Nat :=
  if c ∈ alphabet then .ok (alphabet.indexOf c) else .error .value

/-- `cipher.alpha_index(c1, c2)` with both arguments present:
`(alphabet.index(c1) + alphabet.index(c2)) % len(alphabet)`. -/
def alphaIndex2 (c1 c2 : Char) : Except Err Nat := do
  let i1 ← alphaIndex1 c1
  let i2 ← alphaIndex1 c2
  return (i1 + i2) % alphabet.length

/-- `cipher._sbox_at(c1)` (one-argument form). -/
def sboxAt1 (sbox : List Char) (c : Char) : Except Err Char := do
  let i ← alphaIndex1 c
  listAt sbox i

/-- `cipher._sbox_at(c1, c2)` (two-argument form). -/
def sboxAt2 (sbox : List Char) (c1 c2 : Char) : Except Err Char := do
  let i ← alphaIndex2 c1 c2
  listAt sbox i

/-- `cipher.substitute`: `sbox[idx(text[0])]` followed, for `i` in
`range(1, len(text))`, by `sbox[(idx(text[i]) + idx(text[i-1])) % 27]`. -/
def substituteE (sbox text : List Char) : Except Err (List Char) := do
  let c0 ← listAt text 0
  let s0 ← sboxAt1 sbox c0
  let rest ← (List.range' 1 (text.length - 1)).mapM (fun i => do
      let a ← listAt text (i - 1)
      let b ← listAt text i
      sboxAt2 sbox a b)
  return s0 :: rest

/-- Python `range(a, b, s)` for `s > 0` as a list of indices. -/
def pyRange (a b s : Nat) : List Nat := List.range' a ((b - a + s - 1) / s) s

/-- Python slice `text[b::k]` for `k > 0`: the characters at indices
`b, b+k, b+2k, ...` strictly below `len(text)`. -/
def sliceStep (l : List Char) (b k : Nat) : List Char :=
  (pyRange b l.length k).map (fun j => l.getD j 'a')

/-- `cipher.permute`: concatenation of the slices
`text[(blocksize + i - 1) % blocksize :: blocksize]` for `i = 0, 1, 2`. -/
def permute (text : List Char) : List Char :=
  List.flatten ((List.range blocksize).map
    (fun i => sliceStep text ((blocksize + i - 1) % blocksize) blocksize))

/-- `cipher.unpermute`: `[text[j % length] for i in range(nb)
for j in range(nb + i, length + nb, nb)]` with `length = len(text)` and
`nb = length // blocksize` (the two Python locals are inlined here). -/
def unpermute (text : List Char) : List Char :=
  List.flatten ((List.range (text.length / blocksize)).map (fun i =>
    (pyRange (text.length / blocksize + i) (text.length + text.length / blocksize)
        (text.length / blocksize)).map
      (fun j => text.getD (j % text.length) 'a')))

/-- `cipher.single_round`: `permute(substitute(text))`. -/
def singleRoundE (sbox text : List Char) : Except Err (List Char) := do
  let s ← substituteE sbox text
  return permute s

/-- The round loop of `cipher.encrypt`: apply `single_round` `n` times. -/
def roundsE (sbox : List Char) : Nat → List Char → Except Err (List Char)
  | 0, t => .ok t
  | n + 1, t => do roundsE sbox n (← singleRoundE sbox t)

/-- The padding step of `cipher.encrypt`: right-pad with `'_'` to a multiple
of the block size when the length is not already one. -/
def pad3 (text : List Char) : List Char :=
  if text.length % blocksize ≠ 0 then
    text ++ List.replicate (blocksize - text.length % blocksize) '_'
  else text

/-- `cipher.encrypt`: pad, then apply `single_round` exactly
`max(10, len(padded_text))` times. -/
def encryptE (sbox text : List Char) : Except Err (List Char) :=
  let padded := pad3 text
  roundsE sbox (max 10 padded.length) padded

/-- The error checks of `cipher.__init__` on a caller-supplied sbox string.
Note `if sbox:` in Python is false for the empty string, in which case all
checks are skipped and a random sbox is generated instead.  Returns `true`
exactly when an `AssertionError` is raised. -/
def cipherInitRaises (sbox : List Char) : Bool :=
  if sbox.isEmpty then false
  else
    decide (sbox.length ≠ alphabet.length) ||
    decide (sbox.dedup.length ≠ alphabet.length) ||
    sbox.any (fun c => decide (c ∉ alphabet)) ||
    decide (sbox = alphabet)

lemma add_mul_div_self (r m k : Nat) (hk : 0 < k) (h : r < k) : (r + m * k) / k = m := by
  rw [Nat.add_mul_div_right _ _ hk, Nat.div_eq_of_lt h, Nat.zero_add]

lemma sliceStep3_length (l : List Char) (b m : Nat) (hn : l.length = 3 * m) (hb : b ≤ 2) :
    (sliceStep l b 3).length = m := by
  simp only [sliceStep, pyRange, List.length_map, List.length_range']
  omega

lemma sliceStep3_getD (l : List Char) (b m i : Nat) (hn : l.length = 3 * m) (hb : b ≤ 2)
    (hi : i < m) : (sliceStep l b 3).getD i 'a' = l.getD (b + 3 * i) 'a' := by
  have hlen : (sliceStep l b 3).length = m := sliceStep3_length l b m hn hb
  have hi' : i < (sliceStep l b 3).length := by omega
  rw [List.getD_eq_getElem _ _ hi']
  simp only [sliceStep, List.getElem_map, List.getElem_range', pyRange]

lemma permute_eq_slices (l : List Char) :
    permute l = sliceStep l 2 3 ++ (sliceStep l 0 3 ++ sliceStep l 1 3) := by
  simp [permute, blocksize, List.range_succ]

lemma permute_length (l : List Char) (m : Nat) (hn : l.length = 3 * m) :
    (permute l).length = 3 * m := by
  rw [permute_eq_slices]
  simp only [List.length_append, sliceStep3_length l 2 m hn (by omega),
    sliceStep3_length l 0 m hn (by omega), sliceStep3_length l 1 m hn (by omega)]
  omega

lemma flatten_triples (g : Nat → Char) :
    ∀ m, List.flatten ((List.range m).map (fun i => [g (3 * i), g (3 * i + 1), g (3 * i + 2)]))
      = (List.range (3 * m)).map g := by
  intro m
  induction m with
  | zero => simp
  | succ n ih =>
    have h3 : 3 * (n + 1) = (3 * n + 1) + 1 + 1 := by ring
    rw [List.range_succ, h3, List.range_succ, List.range_succ, List.range_succ]
    simp only [List.map_append, List.flatten_append, ih]
    simp

lemma map_getD_range (l : List Char) :
    (List.range l.length).map (fun j => l.getD j 'a') = l := by
  induction l with
  | nil => simp
  | cons a t ih =>
    simp [List.range_succ_eq_map, List.map_map, Function.comp_def, List.getD_cons_succ]
    simpa using ih

/-- C4: `unpermute(permute(text)) == text` for any text whose length is a
multiple of the block size 3. -/
theorem C4_unpermute_permute (l : List Char) (h : 3 ∣ l.length) :
    unpermute (permute l) = l := by
  obtain ⟨m, hm⟩ := h
  rcases Nat.eq_zero_or_pos m with hm0 | hmpos
  · subst hm0
    have : l = [] := List.eq_nil_of_length_eq_zero (by omega)
    subst this
    rfl
  · have hylen : (permute l).length = 3 * m := permute_length l m hm
    set y := permute l with hy
    have len2 : (sliceStep l 2 3).length = m := sliceStep3_length l 2 m hm (by omega)
    have len0 : (sliceStep l 0 3).length = m := sliceStep3_length l 0 m hm (by omega)
    have len1 : (sliceStep l 1 3).length = m := sliceStep3_length l 1 m hm (by omega)
    have hgetA : ∀ i, i < m → y.getD i 'a' = l.getD (2 + 3 * i) 'a' := by
      intro i hi
      rw [hy, permute_eq_slices, List.getD_append _ _ _ _ (by omega)]
      exact sliceStep3_getD l 2 m i hm (by omega) hi
    have hgetB : ∀ i, i < m → y.getD (m + i) 'a' = l.getD (3 * i) 'a' := by
      intro i hi
      rw [hy, permute_eq_slices, List.getD_append_right _ _ _ _ (by omega)]
      have hidx : m + i - (sliceStep l 2 3).length = i := by omega
      rw [hidx, List.getD_append _ _ _ _ (by omega)]
      have := sliceStep3_getD l 0 m i hm (by omega) hi
      simpa using this
    have hgetC : ∀ i, i < m → y.getD (2 * m + i) 'a' = l.getD (1 + 3 * i) 'a' := by
      intro i hi
      rw [hy, permute_eq_slices, List.getD_append_right _ _ _ _ (by omega)]
      have hidx : 2 * m + i - (sliceStep l 2 3).length = m + i := by omega
      rw [hidx, List.getD_append_right _ _ _ _ (by omega)]
      have hidx2 : m + i - (sliceStep l 0 3).length = i := by omega
      rw [hidx2]
      exact sliceStep3_getD l 1 m i hm (by omega) hi
    show unpermute y = l
    unfold unpermute
    rw [hylen]
    have hnb : 3 * m / blocksize = m := by
      unfold blocksize
      omega
    rw [hnb]
    have hinner : ((List.range m).map (fun i =>
        (pyRange (m + i) (3 * m + m) m).map (fun j => y.getD (j % (3 * m)) 'a')))
        = (List.range m).map (fun i =>
            [l.getD (3 * i) 'a', l.getD (3 * i + 1) 'a', l.getD (3 * i + 2) 'a']) := by
      apply List.map_congr_left
      intro i hi
      rw [List.mem_range] at hi
      have hcnt : 3 * m + m - (m + i) + m - 1 = (m - i - 1) + 3 * m := by omega
      have hdiv : ((m - i - 1) + 3 * m) / m = 3 :=
        add_mul_div_self (m - i - 1) 3 m hmpos (by omega)
      have hrange : pyRange (m + i) (3 * m + m) m = [m + i, m + i + m, m + i + m + m] := by
        simp only [pyRange, hcnt, hdiv]
        simp [List.range']
      rw [hrange]
      simp only [List.map_cons, List.map_nil]
      have e1 : (m + i) % (3 * m) = m + i := Nat.mod_eq_of_lt (by omega)
      have e2 : (m + i + m) % (3 * m) = 2 * m + i := by
        rw [Nat.mod_eq_of_lt (by omega)]; omega
      have e3 : (m + i + m + m) % (3 * m) = i := by
        have h34 : m + i + m + m = i + 3 * m := by omega
        rw [h34, Nat.add_mod_right, Nat.mod_eq_of_lt (by omega)]
      rw [e1, e2, e3, hgetB i hi, hgetC i hi, hgetA i hi]
      have c1 : 1 + 3 * i = 3 * i + 1 := by omega
      have c2 : 2 + 3 * i = 3 * i + 2 := by omega
      rw [c1, c2]
    rw [hinner, flatten_triples (fun j => l.getD j 'a') m, ← hm, map_getD_range]

/-- C5: `encrypt` right-pads with the boundary symbol `'_'` to the smallest
multiple of 3 that is at least the original length (namely `3 * ((n+2)/3)`),
and then applies `single_round` exactly `max 10 (padded length)` times. -/
theorem C5_encrypt_pad_rounds (sbox text : List Char) :
    (pad3 text).length = 3 * ((text.length + 2) / 3) ∧
    text.length ≤ (pad3 text).length ∧
    3 ∣ (pad3 text).length ∧
    (∀ m, 3 ∣ m → text.length ≤ m → (pad3 text).length ≤ m) ∧
    pad3 text = text ++ List.replicate ((pad3 text).length - text.length) '_' ∧
    encryptE sbox text = roundsE sbox (max 10 (pad3 text).length) (pad3 text) := by
  have hplen : (pad3 text).length = 3 * ((text.length + 2) / 3) := by
    unfold pad3 blocksize
    split
    · simp only [List.length_append, List.length_replicate]
      omega
    · omega
  refine ⟨hplen, by omega, ⟨_, hplen⟩, ?_, ?_, rfl⟩
  · intro m hdvd hle
    obtain ⟨k, rfl⟩ := hdvd
    omega
  · rw [hplen]
    unfold pad3 blocksize
    split
    · congr 1
      congr 1
      omega
    · have : 3 * ((text.length + 2) / 3) - text.length = 0 := by omega
      rw [this]
      simp

lemma nodup_iff_dedup_length (l : List Char) : l.Nodup ↔ l.dedup.length = l.length := by
  constructor
  · intro h
    rw [List.dedup_eq_self.mpr h]
  · intro h
    have hsub : l.dedup.Sublist l := List.dedup_sublist l
    have heq : l.dedup = l := hsub.eq_of_length h
    rw [← heq]
    exact List.nodup_dedup l

/-- The failure condition that claim C9 asserts for a caller-supplied key:
wrong length, a duplicate symbol, an out-of-alphabet symbol, or the identity
permutation. -/
def c9ClaimConds (sbox : List Char) : Prop :=
  sbox.length ≠ 27 ∨ ¬ sbox.Nodup ∨ (∃ c ∈ sbox, c ∉ alphabet) ∨ sbox = alphabet

instance : DecidablePred c9ClaimConds := fun sbox => by
  unfold c9ClaimConds
  infer_instance

/-- C9 counterexample: the empty string is a caller-supplied key whose length
is 0 and not 27, so the claim requires construction to fail; but Python's
`if sbox:` is false for the empty string, the checks are skipped, and a random
key is generated without an error. -/
theorem C9_counterexample :
    ¬ (cipherInitRaises [] = true ↔ c9ClaimConds ([] : List Char)) := by
  decide

/-- C9 amended: constructing a cipher with a caller-supplied key raises if and
only if the key is non-empty and is not of length 27, contains a duplicate,
contains a symbol outside the alphabet, or equals the identity permutation
(an empty supplied key is treated like an absent key and a random key is
generated); in particular a key equal to the alphabet is always rejected. -/
theorem C9_init_raises_iff :
    (∀ sbox : List Char, cipherInitRaises sbox = true ↔ sbox ≠ [] ∧ c9ClaimConds sbox) ∧
    cipherInitRaises alphabet = true := by
  constructor
  · intro sbox
    rcases eq_or_ne sbox [] with rfl | hne
    · simp [cipherInitRaises]
    · have hisE : sbox.isEmpty = false := by
        cases sbox with
        | nil => exact absurd rfl hne
        | cons a t => rfl
      have h27 : alphabet.length = 27 := rfl
      unfold cipherInitRaises c9ClaimConds
      rw [hisE]
      simp only [Bool.false_eq_true, if_false, Bool.or_eq_true, decide_eq_true_eq,
        List.any_eq_true, h27]
      have hnd := nodup_iff_dedup_length sbox
      by_cases hL : sbox.length = 27
      · have hiff : sbox.dedup.length ≠ 27 ↔ ¬ sbox.Nodup := by
          rw [hnd, hL]
        rw [hiff]
        constructor
        · rintro (((hA | hB) | hC) | hD)
          exacts [⟨hne, Or.inl hA⟩, ⟨hne, Or.inr (Or.inl hB)⟩,
            ⟨hne, Or.inr (Or.inr (Or.inl hC))⟩, ⟨hne, Or.inr (Or.inr (Or.inr hD))⟩]
        · rintro ⟨-, (hA | hB | hC | hD)⟩
          exacts [Or.inl (Or.inl (Or.inl hA)), Or.inl (Or.inl (Or.inr hB)),
            Or.inl (Or.inr hC), Or.inr hD]
      · constructor
        · intro _
          exact ⟨hne, Or.inl hL⟩
        · intro _
          exact Or.inl (Or.inl (Or.inl hL))
  · decide

lemma permute_length_eq (l : List Char) : (permute l).length = l.length := by
  rw [permute_eq_slices]
  simp only [List.length_append, sliceStep, pyRange, List.length_map, List.length_range']
  omega

lemma mem_pyRange_lt (j b n : Nat) (h : j ∈ pyRange b n 3) : j < n := by
  rw [pyRange, List.mem_range'] at h
  obtain ⟨t, ht, rfl⟩ := h
  omega

lemma permute_mem (l : List Char) (c : Char) (hc : c ∈ permute l) : c ∈ l := by
  rw [permute_eq_slices] at hc
  simp only [List.mem_append] at hc
  have key : ∀ b, c ∈ sliceStep l b 3 → c ∈ l := by
    intro b hb
    simp only [sliceStep, List.mem_map] at hb
    obtain ⟨j, hj, rfl⟩ := hb
    have hlt : j < l.length := mem_pyRange_lt j b l.length hj
    rw [List.getD_eq_getElem _ _ hlt]
    exact List.getElem_mem hlt
  rcases hc with h | h | h
  · exact key 2 h
  · exact key 0 h
  · exact key 1 h

lemma listAt_ok (l : List Char) (i : Nat) (h : i < l.length) :
    listAt l i = .ok l[i] := by
  simp [listAt, h]

/-- Generic classification of `mapM'` over `Except`: if every element either
succeeds with a value satisfying `P` or fails with a ValueError, so does the
whole traversal, and on success the length is preserved. -/
lemma mapMQ_classify (f : Nat → Except Err Char) (P : Char → Prop) (l : List Nat)
    (h : ∀ i ∈ l, (∃ c, f i = .ok c ∧ P c) ∨ f i = .error .value) :
    (∃ ys, l.mapM' f = .ok ys ∧ ys.length = l.length ∧ ∀ c ∈ ys, P c) ∨
    l.mapM' f = .error .value := by
  induction l with
  | nil => exact Or.inl ⟨[], rfl, rfl, by simp⟩
  | cons a t ih =>
    rcases h a (List.mem_cons_self a t) with ⟨c, hc, hPc⟩ | hc
    · rcases ih (fun i hi => h i (List.mem_cons_of_mem a hi)) with ⟨ys, hys, hlen, hall⟩ | hys
      · refine Or.inl ⟨c :: ys, ?_, by simp [hlen], ?_⟩
        · simp [List.mapM'_cons, hc, hys, bind, Except.bind, pure, Except.pure]
        · intro d hd
          rcases List.mem_cons.mp hd with rfl | hd
          · exact hPc
          · exact hall d hd
      · right
        simp [List.mapM'_cons, hc, hys, bind, Except.bind]
    · right
      simp [List.mapM'_cons, hc, bind, Except.bind]

lemma substituteE_classify (sbox text : List Char) (hs : sbox.length = 27)
    (ht : text ≠ []) :
    (∃ ys, substituteE sbox text = .ok ys ∧ ys.length = text.length ∧
      ∀ c ∈ ys, c ∈ sbox) ∨
    substituteE sbox text = .error .value := by
  have h0 : 0 < text.length := List.length_pos.mpr ht
  have hstep : ∀ i ∈ List.range' 1 (text.length - 1),
      (∃ c, (do
          let a ← listAt text (i - 1)
          let b ← listAt text i
          sboxAt2 sbox a b) = .ok c ∧ c ∈ sbox) ∨
      (do
          let a ← listAt text (i - 1)
          let b ← listAt text i
          sboxAt2 sbox a b) = .error Err.value := by
    intro i hi
    rw [List.mem_range'] at hi
    obtain ⟨t, ht', rfl⟩ := hi
    have e1 : 1 + 1 * t - 1 = t := by omega
    have e2 : 1 + 1 * t = t + 1 := by omega
    rw [e1, e2]
    have hb1 : t < text.length := by omega
    have hb2 : t + 1 < text.length := by omega
    rw [listAt_ok _ _ hb1, listAt_ok _ _ hb2]
    by_cases ha : text[t] ∈ alphabet
    · by_cases hb : text[t + 1] ∈ alphabet
      · have hidx : (alphabet.indexOf text[t] +
            alphabet.indexOf text[t + 1]) % alphabet.length < sbox.length := by
          rw [hs]
          exact Nat.mod_lt _ (by decide)
        refine Or.inl ⟨sbox[(alphabet.indexOf text[t] +
            alphabet.indexOf text[t + 1]) % alphabet.length], ?_, List.getElem_mem hidx⟩
        simp [sboxAt2, alphaIndex2, alphaIndex1, ha, hb, listAt_ok _ _ hidx,
          bind, Except.bind, pure, Except.pure]
      · right
        simp [sboxAt2, alphaIndex2, alphaIndex1, ha, hb, bind, Except.bind, pure, Except.pure]
    · right
      simp [sboxAt2, alphaIndex2, alphaIndex1, ha, bind, Except.bind, pure, Except.pure]
  unfold substituteE
  rw [listAt_ok text 0 h0, ← List.mapM'_eq_mapM]
  by_cases hc0 : text[0] ∈ alphabet
  · have hidx0 : alphabet.indexOf text[0] < sbox.length := by
      rw [hs]
      exact List.indexOf_lt_length.mpr hc0
    have hokhead : sboxAt1 sbox text[0] = .ok sbox[alphabet.indexOf text[0]] := by
      simp [sboxAt1, alphaIndex1, hc0, listAt_ok _ _ hidx0, bind, Except.bind]
    rcases mapMQ_classify _ (fun c => c ∈ sbox) _ hstep with ⟨ys, hys, hlen, hall⟩ | hys
    · refine Or.inl ⟨sbox[alphabet.indexOf text[0]] :: ys, ?_, ?_, ?_⟩
      · simp only [bind, Except.bind] at hys
        simp [bind, Except.bind, hokhead, hys, pure, Except.pure]
      · simp only [List.length_cons, hlen, List.length_range']
        omega
      · intro d hd
        rcases List.mem_cons.mp hd with rfl | hd
        · exact List.getElem_mem hidx0
        · exact hall d hd
    · right
      simp only [bind, Except.bind] at hys
      simp [bind, Except.bind, hokhead, hys]
  · right
    have hbad : sboxAt1 sbox text[0] = .error .value := by
      simp [sboxAt1, alphaIndex1, hc0]
      rfl
    simp [bind, Except.bind, hbad]

lemma roundsE_classify (sbox : List Char) (hs : sbox.length = 27) :
    ∀ n text, text ≠ [] →
      (∃ ys, roundsE sbox n text = .ok ys ∧ ys.length = text.length) ∨
      roundsE sbox n text = .error .value := by
  intro n
  induction n with
  | zero => intro text ht; exact Or.inl ⟨text, rfl, rfl⟩
  | succ k ih =>
    intro text ht
    rcases substituteE_classify sbox text hs ht with ⟨ys, hys, hlen, -⟩ | hys
    · have hplen : (permute ys).length = text.length := by
        rw [permute_length_eq, hlen]
      have hpne : permute ys ≠ [] := by
        intro hcon
        rw [hcon] at hplen
        exact ht (List.eq_nil_of_length_eq_zero (by simpa using hplen.symm))
      rcases ih (permute ys) hpne with ⟨zs, hzs, hzlen⟩ | hzs
      · refine Or.inl ⟨zs, ?_, by rw [hzlen, hplen]⟩
        simp [roundsE, bind, Except.bind, singleRoundE, pure, Except.pure, hys, hzs]
      · right
        simp [roundsE, bind, Except.bind, singleRoundE, pure, Except.pure, hys, hzs]
    · right
      simp [roundsE, bind, Except.bind, singleRoundE, pure, Except.pure, hys]

/-- C10: `encrypt` never performs an out-of-bounds character access on a
non-empty plaintext (its only possible runtime failure there is a ValueError
from `alphabet.index` on a foreign character), while on the empty plaintext
(left unpadded because 0 is a multiple of 3) the first round's `substitute`
reads `text[0]` out of bounds. -/
theorem C10_encrypt_partial_totality (sbox text : List Char) (hs : sbox.length = 27) :
    (text ≠ [] → encryptE sbox text ≠ .error .oob) ∧
    encryptE sbox [] = .error .oob := by
  constructor
  · intro ht
    have hpne : pad3 text ≠ [] := by
      unfold pad3
      split
      · intro hcon
        exact ht (List.append_eq_nil.mp hcon).1
      · exact ht
    unfold encryptE
    rcases roundsE_classify sbox hs (max 10 (pad3 text).length) (pad3 text) hpne with
      ⟨ys, hys, -⟩ | hys
    · rw [hys]
      intro hcon
      cases hcon
    · rw [hys]
      intro hcon
      cases hcon
  · rfl

/-- Witness for C10 at a concrete key and text. -/
theorem C10_witness :
    (encryptE alphabet ['c', 'a', 't'] ≠ .error .oob) ∧
    encryptE alphabet [] = .error .oob :=
  ⟨(C10_encrypt_partial_totality alphabet ['c', 'a', 't'] (by decide)).1 (by decide),
   (C10_encrypt_partial_totality alphabet ['c', 'a', 't'] (by decide)).2⟩

/-- Python sets of single-character strings are modelled as lists; all set
operations use whole-list filtering, so duplicates never matter. -/
abbrev PSet := List Char

/-- `set.discard(c)`. -/
def sdiscard (s : PSet) (c : Char) : PSet := s.filter (fun x => decide (x ≠ c))

/-- Set intersection `a & b`. -/
def sinter (a b : PSet) : PSet := a.filter (fun x => decide (x ∈ b))

/-- Set difference `a - b`. -/
def sdiff (a b : PSet) : PSet := a.filter (fun x => decide (x ∉ b))

/-- One `(input-set, output-set)` pair of a frequency class. -/
abbrev FPair := PSet × PSet

/-- `self.freqs`: an insertion-ordered dict from frequency to a list of
set pairs. -/
abbrev Freqs := List (Nat × List FPair)

/-- Result of one left-to-right scan of one class list in
`cracker._remove_from_freqs`: either the scan found a pair whose input set
became empty (the pair is dropped, later pairs left untouched because the
Python code restarts from scratch), or the scan completed with every pair
discarded. -/
inductive PairScan where
  | dropped (l : List FPair)
  | done (l : List FPair)

def rmPairs (c1 c2 : Char) : List FPair → PairScan
  | [] => .done []
  | (ins, outs) :: rest =>
    let ins' := sdiscard ins c1
    let outs' := sdiscard outs c2
    if ins'.isEmpty then .dropped rest
    else
      match rmPairs c1 c2 rest with
      | .dropped rest' => .dropped ((ins', outs') :: rest')
      | .done rest' => .done ((ins', outs') :: rest')

/-- Result of one pass over the whole dict in `cracker._remove_from_freqs`:
`restart` when a pair or a key was popped (the Python code then calls itself
and returns), `finished` when the pass completed. -/
inductive KeyScan where
  | restart (fd : Freqs)
  | finished (fd : Freqs)

def rmKeys (c1 c2 : Char) : Freqs → KeyScan
  | [] => .finished []
  | (f, l) :: rest =>
    match rmPairs c1 c2 l with
    | .dropped l' => .restart ((f, l') :: rest)
    | .done l' =>
      if l'.isEmpty then .restart rest
      else
        match rmKeys c1 c2 rest with
        | .restart fd' => .restart ((f, l') :: fd')
        | .finished fd' => .finished ((f, l') :: fd')

/-- Termination measure for `_remove_from_freqs`: keys plus pairs. -/
def fdSize (fd : Freqs) : Nat := fd.length + (fd.map (fun p => p.2.length)).sum

lemma rmPairs_dropped_length (c1 c2 : Char) :
    ∀ l l', rmPairs c1 c2 l = .dropped l' → l'.length + 1 = l.length := by
  intro l
  induction l with
  | nil =>
    intro l' h
    simp [rmPairs] at h
  | cons p rest ih =>
    intro l' h
    obtain ⟨ins, outs⟩ := p
    simp only [rmPairs] at h
    cases he : (sdiscard ins c1).isEmpty with
    | true =>
      rw [he] at h
      simp at h
      subst h
      simp
    | false =>
      rw [he] at h
      simp only [Bool.false_eq_true, if_false] at h
      cases hr : rmPairs c1 c2 rest with
      | dropped rest' =>
        rw [hr] at h
        simp at h
        subst h
        have := ih rest' hr
        simp
        omega
      | done rest' =>
        rw [hr] at h
        simp at h

lemma rmPairs_done_length (c1 c2 : Char) :
    ∀ l l', rmPairs c1 c2 l = .done l' → l'.length = l.length := by
  intro l
  induction l with
  | nil =>
    intro l' h
    simp [rmPairs] at h
    subst h
    rfl
  | cons p rest ih =>
    intro l' h
    obtain ⟨ins, outs⟩ := p
    simp only [rmPairs] at h
    cases he : (sdiscard ins c1).isEmpty with
    | true =>
      rw [he] at h
      simp at h
    | false =>
      rw [he] at h
      simp only [Bool.false_eq_true, if_false] at h
      cases hr : rmPairs c1 c2 rest with
      | dropped rest' =>
        rw [hr] at h
        simp at h
      | done rest' =>
        rw [hr] at h
        simp at h
        subst h
        have := ih rest' hr
        simp [this]

lemma rmKeys_restart_size (c1 c2 : Char) :
    ∀ fd fd', rmKeys c1 c2 fd = .restart fd' → fdSize fd' < fdSize fd := by
  intro fd
  induction fd with
  | nil =>
    intro fd' h
    simp [rmKeys] at h
  | cons p rest ih =>
    intro fd' h
    obtain ⟨f, l⟩ := p
    simp only [rmKeys] at h
    cases hr : rmPairs c1 c2 l with
    | dropped l' =>
      rw [hr] at h
      simp at h
      subst h
      have hlen := rmPairs_dropped_length c1 c2 l l' hr
      simp [fdSize]
      omega
    | done l' =>
      rw [hr] at h
      simp only at h
      have hlen := rmPairs_done_length c1 c2 l l' hr
      cases he : l'.isEmpty with
      | true =>
        rw [he] at h
        simp at h
        subst h
        have : l.length = 0 := by
          rw [← hlen]
          exact List.isEmpty_iff_length_eq_zero.mp he
        simp [fdSize]
        omega
      | false =>
        rw [he] at h
        simp only [Bool.false_eq_true, if_false] at h
        cases hk : rmKeys c1 c2 rest with
        | restart fd'' =>
          rw [hk] at h
          simp at h
          subst h
          have := ih fd'' hk
          simp [fdSize] at *
          omega
        | finished fd'' =>
          rw [hk] at h
          simp at h

/-- The restart loop of `cracker._remove_from_freqs`, with an explicit bound
on the number of restarts (each restart pops a pair or a key, so
`fdSize fd + 1` passes always suffice; see `rmLoop_le_fuel`). -/
def rmLoop (c1 c2 : Char) : Nat → Freqs → Freqs
  | 0, fd => fd
  | fuel + 1, fd =>
    match rmKeys c1 c2 fd with
    | .finished fd' => fd'
    | .restart fd' => rmLoop c1 c2 fuel fd'

/-- `cracker._remove_from_freqs(c1, c2)`: repeatedly rescan the dict until a
full pass pops nothing. -/
def removeFromFreqs (c1 c2 : Char) (fd : Freqs) : Freqs :=
  rmLoop c1 c2 (fdSize fd + 1) fd

/-- `Counter(column).most_common()`: the distinct symbols of the column with
their counts, sorted by decreasing count.  (CPython's sort is stable on ties,
but the grouping step below merges equal counts into one set, so the order
among ties is irrelevant.) -/
def mostCommon (col : List Char) : List (Char × Nat) :=
  (col.dedup.map (fun c => (c, col.count c))).insertionSort (fun a b => b.2 ≤ a.2)

/-- The grouping loop of `cracker._gen_frequency_dict`:
`try: d[v].add(k) except KeyError: d[v] = set(k)` on an insertion-ordered
dict. -/
def addToClass : List (Nat × PSet) → Nat → Char → List (Nat × PSet)
  | [], v, k => [(v, [k])]
  | (f, s) :: rest, v, k =>
    if f = v then (f, if k ∈ s then s else s ++ [k]) :: rest
    else (f, s) :: addToClass rest v k

/-- The per-column frequency dict `col_freqs[col]`. -/
def colFreqDict (col : List Char) : List (Nat × PSet) :=
  (mostCommon col).foldl (fun d kv => addToClass d kv.2 kv.1) []

/-- Column `c` of the relationship table, `self.rtable[:, c]`. -/
def column (rt : List (List Char)) (c : Nat) : List Char :=
  rt.map (fun row => row.getD c '.')

/-- The contribution of input column `i` in `cracker._gen_frequency_dict`:
`zip(col_freqs[i].items(), col_freqs[i + L].values())`. -/
def contribFor (rt : List (List Char)) (L i : Nat) : List ((Nat × PSet) × PSet) :=
  (colFreqDict (column rt i)).zip ((colFreqDict (column rt (i + L))).map Prod.snd)

/-- The merge loop of `cracker._gen_frequency_dict`:
`try: freqs[freq].append(setmap) except KeyError: freqs[freq] = [setmap]`. -/
def addPair : Freqs → Nat → FPair → Freqs
  | [], f, p => [(f, [p])]
  | (g, l) :: rest, f, p =>
    if g = f then (g, l ++ [p]) :: rest else (g, l) :: addPair rest f p

/-- `cracker._gen_frequency_dict`. -/
def genFrequencyDict (rt : List (List Char)) (L : Nat) : Freqs :=
  (List.range L).foldl
    (fun fd i => (contribFor rt L i).foldl (fun fd x => addPair fd x.1.1 (x.1.2, x.2)) fd) []

/-- `cracker.alphabet_at(c1, c2)`: the alphabet symbol at `alpha_index`. -/
def alphabetAt2 (c1 c2 : Char) : Except Err Char := do
  let i ← alphaIndex2 c1 c2
  listAt alphabet i

/-- The chosen plaintext `ptxt0` of `_gen_relationship_table`:
`(c + alphabet[0]) * (L // 2)` plus a trailing `c` when `L` is odd. -/
def ptxt0 (L : Nat) (c : Char) : List Char :=
  List.flatten (List.replicate (L / 2) [c, alphabet.getD 0 'a']) ++
    (if L % 2 ≠ 0 then [c] else [])

/-- The chosen plaintext `ptxt1` of `_gen_relationship_table`: `c * L`. -/
def ptxt1 (L : Nat) (c : Char) : List Char := List.replicate L c

/-- One row of `cracker._gen_relationship_table`:
`[ctxt0[0]] + [alphabet_at(ctxt0[j-1], ctxt0[j]) for j in range(1, L)]
+ unpermute(ctxt1)`. -/
def rowE (sbox : List Char) (L : Nat) (c : Char) : Except Err (List Char) := do
  let ct0 ← encryptE sbox (ptxt0 L c)
  let ct1 ← encryptE sbox (ptxt1 L c)
  let e0 ← listAt ct0 0
  let mid ← (List.range' 1 (L - 1)).mapM (fun j => do
      let a ← listAt ct0 (j - 1)
      let b ← listAt ct0 j
      alphabetAt2 a b)
  return e0 :: (mid ++ unpermute ct1)

/-- `cracker._gen_relationship_table`: one row per alphabet symbol. -/
def genRTableE (sbox : List Char) (L : Nat) : Except Err (List (List Char)) :=
  alphabet.mapM (rowE sbox L)

/-- The read-only context of a crack attempt: relationship table, effective
input length, and the enabled analysis methods. -/
structure Ctx where
  rtable : List (List Char)
  len : Nat
  simple : Bool
  complexRule : Bool

/-- The mutable cracker state: the partial key `self.sbox`, the pool
`self.remaining`, the frequency dict `self.freqs`, the trace of all partial-key
writes `(slot, previous value, new value)` performed by `_add_mapping`, the two
`sets compared` statistics counters, and the pending Python exception (if any),
modelled as a poison flag that freezes the state. -/
structure EState where
  sbox : List Char
  remaining : List Char
  freqs : Freqs
  trace : List (Nat × Char × Char)
  cmpSimple : Nat
  cmpComplex : Nat
  err : Option Err
  deriving Repr, DecidableEq

/-- Raising a Python exception: the state freezes. -/
def poison (s : EState) (e : Err) : EState := { s with err := some e }

/-- Result of the SIMPLE scan over one class list: number of pairs visited,
and on a singleton input set the in-place mutation performed by the two
`pop()` calls together with the popped mapping (`hitErr` when the output set
was already empty and `pop()` raises KeyError). -/
inductive SimplePairsRes where
  | hit (l : List FPair) (x y : Char) (cmps : Nat)
  | hitErr (l : List FPair) (cmps : Nat)
  | miss (cmps : Nat)

def simplePairs : List FPair → SimplePairsRes
  | [] => .miss 0
  | (ins, outs) :: rest =>
    if ins.length = 1 then
      match outs with
      | [] => .hitErr (([], []) :: rest) 1
      | y :: ytail => .hit (([], ytail) :: rest) (ins.headD '.') y 1
    else
      match simplePairs rest with
      | .hit rest' x y n => .hit ((ins, outs) :: rest') x y (n + 1)
      | .hitErr rest' n => .hitErr ((ins, outs) :: rest') (n + 1)
      | .miss n => .miss (n + 1)

/-- Result of the SIMPLE scan over the whole dict. -/
inductive SimpleRes where
  | hit (fd : Freqs) (x y : Char) (cmps : Nat)
  | hitErr (fd : Freqs) (cmps : Nat)
  | miss (cmps : Nat)
  deriving DecidableEq, Repr

def simpleKeys : Freqs → SimpleRes
  | [] => .miss 0
  | (f, l) :: rest =>
    match simplePairs l with
    | .hit l' x y n => .hit ((f, l') :: rest) x y n
    | .hitErr l' n => .hitErr ((f, l') :: rest) n
    | .miss n =>
      match simpleKeys rest with
      | .hit fd' x y n2 => .hit ((f, l) :: fd') x y (n + n2)
      | .hitErr fd' n2 => .hitErr ((f, l) :: fd') (n + n2)
      | .miss n2 => .miss (n + n2)

/-- The pair entries of the frequency dict in iteration order: frequency key,
position inside that key's class list, and the set pair. -/
def entriesOf (fd : Freqs) : List (Nat × Nat × FPair) :=
  List.flatten (fd.map (fun p => p.2.enum.map (fun q => (p.1, q.1, q.2))))

/-- Result of the COMPLEX scan: comparisons counted (the
`num_sets_compared_complex` statistic) and the mapping found, if any. -/
inductive ComplexRes where
  | hit (x y : Char) (cmps : Nat)
  | hitErr (cmps : Nat)
  | miss (cmps : Nat)
  deriving DecidableEq, Repr

/-- The inner loop of the COMPLEX rule: compare entry `e1` to each `e2`; a
comparison is counted exactly when `freq1 ≠ freq_inner` and `i ≠ j`. -/
def complexInner : Nat × Nat × FPair → List (Nat × Nat × FPair) → ComplexRes
  | _, [] => .miss 0
  | (f1, i, s1in, s1out), (f2, j, s2in, s2out) :: rest =>
    if f1 ≠ f2 ∧ i ≠ j then
      let intx := sinter s1in s2in
      if intx.length = 1 then
        match sinter s1out s2out with
        | [] => .hitErr 1
        | y :: _ => .hit (intx.headD '.') y 1
      else
        let diff := sdiff s1in s2in
        if diff.length = 1 then
          match sdiff s1out s2out with
          | [] => .hitErr 1
          | y :: _ => .hit (diff.headD '.') y 1
        else
          match complexInner (f1, i, s1in, s1out) rest with
          | .hit x y n => .hit x y (n + 1)
          | .hitErr n => .hitErr (n + 1)
          | .miss n => .miss (n + 1)
    else
      complexInner (f1, i, s1in, s1out) rest

/-- The outer loop of the COMPLEX rule. -/
def complexScanAux (all : List (Nat × Nat × FPair)) :
    List (Nat × Nat × FPair) → ComplexRes
  | [] => .miss 0
  | e1 :: rest =>
    match complexInner e1 all with
    | .hit x y n => .hit x y n
    | .hitErr n => .hitErr n
    | .miss n =>
      match complexScanAux all rest with
      | .hit x y n2 => .hit x y (n + n2)
      | .hitErr n2 => .hitErr (n + n2)
      | .miss n2 => .miss (n + n2)

/-- The COMPLEX ("Intersections and Differences") part of
`cracker.analyze_frequencies`. -/
def complexScan (fd : Freqs) : ComplexRes :=
  complexScanAux (entriesOf fd) (entriesOf fd)

/-- A pending call of the deduction engine: either `_add_mapping(c1, c2)` or
`analyze_frequencies()`. -/
inductive ECall where
  | add (c1 c2 : Char)
  | analyze

/-- The first three statements of `cracker._add_mapping(c1, c2)`: write the
partial-key slot `sbox[alpha_index(c1)] = c2` (recording the write in the
trace as slot, previous value, new value) and clean the frequency dict with
`_remove_from_freqs(c1, c2)`. -/
def commitState (c1 c2 : Char) (s : EState) : EState :=
  { s with
    sbox := s.sbox.set (alphabet.indexOf c1) c2,
    trace := s.trace ++
      [(alphabet.indexOf c1, s.sbox.getD (alphabet.indexOf c1) '.', c2)],
    freqs := removeFromFreqs c1 c2 s.freqs }

/-- `self.remaining.remove(c1)` (after the membership check). -/
def eraseState (c1 : Char) (s : EState) : EState :=
  { s with remaining := s.remaining.erase c1 }

/-- One step of the trail-following loop inside `cracker._add_mapping`: for a
position whose in-half symbol is still unmapped, commit `in-half -> out-half`
through `next` (the recursive `_add_mapping` call). -/
def trailStep (next : Char -> Char -> EState -> EState) (acc : EState)
    (pc : Char × Char) : EState :=
  if acc.err.isSome then acc
  else if pc.1 ∈ alphabet then
    if alphabet.indexOf pc.1 < acc.sbox.length then
      if acc.sbox.getD (alphabet.indexOf pc.1) '.' = '.' then next pc.1 pc.2 acc
      else acc
    else poison acc .oob
  else poison acc .value

/-- The elimination step of `cracker._add_mapping`: when exactly one symbol is
left in `self.remaining`, map it to the one alphabet symbol not yet used in the
partial key, `(set(self.alphabet) - set(self.sbox)).pop()` (`next` is the
recursive `_add_mapping` call; an empty set makes `pop()` raise `KeyError`). -/
def elimStep (next : Char -> Char -> EState -> EState) (s : EState) : EState :=
  if s.remaining.length = 1 then
    match alphabet.filter (fun c => decide (c ∉ s.sbox)) with
    | [] => poison s .keyError
    | c :: _ => next (s.remaining.headD '.') c s
  else s

/-- The tail of `cracker._add_mapping`: look up the relationship-table rows of
`c1` and `c2`, follow the trail `zip(row_in[:L], row_out[L:])` committing each
still-unmapped in-half symbol to its out-half symbol, then re-run
`analyze_frequencies` (`nextAdd` and `nextAnalyze` are the recursive calls). -/
def trailAnalyze (ctx : Ctx) (nextAdd : Char -> Char -> EState -> EState)
    (nextAnalyze : EState -> EState) (c1 c2 : Char) (s4 : EState) : EState :=
  if s4.err.isSome then s4
  else
    match ctx.rtable[alphabet.indexOf c1]? with
    | none => poison s4 .oob
    | some rowIn =>
      if c2 ∈ alphabet then
        match ctx.rtable[alphabet.indexOf c2]? with
        | none => poison s4 .oob
        | some rowOut =>
          nextAnalyze
            (((rowIn.take ctx.len).zip (rowOut.drop ctx.len)).foldl
              (trailStep nextAdd) s4)
      else poison s4 .value

/-- The deduction engine: the mutually recursive pair `cracker._add_mapping` /
`cracker.analyze_frequencies`, merged into one function recursing structurally
on fuel.  The fuel only bounds the recursion depth of the embedding (Python
recurses unboundedly); exhausting it poisons the state with the artificial
`Err.fuel`.

`ECall.add c1 c2` is `_add_mapping(c1, c2)`: write the partial-key slot
`sbox[alpha_index(c1)] = c2`, clean the frequency dict, remove `c1` from the
remaining pool, commit the final mapping by elimination when exactly one
symbol remains, follow the relationship-table trail, and re-run the analysis.

`ECall.analyze` is `analyze_frequencies()`: the SIMPLE rule (input sets of
length one) and then the COMPLEX rule (intersections and differences); the
first finding commits a mapping via `_add_mapping` and returns. -/
def engine (ctx : Ctx) : Nat -> ECall -> EState -> EState
  | 0, _, s => if s.err.isSome then s else poison s .fuel
  | fuel + 1, .add c1 c2, s =>
    if s.err.isSome then s
    else if c1 ∈ alphabet then
      if alphabet.indexOf c1 < s.sbox.length then
        if c1 ∈ (commitState c1 c2 s).remaining then
          if (eraseState c1 (commitState c1 c2 s)).remaining.isEmpty then
            eraseState c1 (commitState c1 c2 s)
          else
            trailAnalyze ctx (fun a b st => engine ctx fuel (.add a b) st)
              (fun st => engine ctx fuel .analyze st) c1 c2
              (elimStep (fun a b st => engine ctx fuel (.add a b) st)
                (eraseState c1 (commitState c1 c2 s)))
        else poison (commitState c1 c2 s) .value
      else poison s .oob
    else poison s .value
  | fuel + 1, .analyze, s =>
    if s.err.isSome then s
    else
      match (if ctx.simple then simpleKeys s.freqs else .miss 0) with
      | .hit fd' x y n =>
          engine ctx fuel (.add x y) { s with freqs := fd', cmpSimple := s.cmpSimple + n }
      | .hitErr fd' n =>
          poison { s with freqs := fd', cmpSimple := s.cmpSimple + n } .keyError
      | .miss n =>
        if ctx.complexRule then
          match complexScan s.freqs with
          | .hit x y m =>
              engine ctx fuel (.add x y)
                { s with cmpSimple := s.cmpSimple + n, cmpComplex := s.cmpComplex + m }
          | .hitErr m =>
              poison
                { s with cmpSimple := s.cmpSimple + n, cmpComplex := s.cmpComplex + m }
                .keyError
          | .miss m =>
              { s with cmpSimple := s.cmpSimple + n, cmpComplex := s.cmpComplex + m }
        else { s with cmpSimple := s.cmpSimple + n }

/-- `cracker._add_mapping(c1, c2)`. -/
def addMapping (ctx : Ctx) (fuel : Nat) (c1 c2 : Char) (s : EState) : EState :=
  engine ctx fuel (.add c1 c2) s

/-- `cracker.analyze_frequencies()`. -/
def analyzeFreqs (ctx : Ctx) (fuel : Nat) (s : EState) : EState :=
  engine ctx fuel .analyze s


/-- The fresh cracker state at the start of `crack()`:
`self.sbox = ['.'] * 27`, `self.remaining = list(alphabet)`. -/
def initState (fd : Freqs) : EState :=
  { sbox := List.replicate alphabet.length '.', remaining := alphabet, freqs := fd,
    trace := [], cmpSimple := 0, cmpComplex := 0, err := none }

/-- `cracker.crack()`: build the relationship table and the frequency dict,
then run `analyze_frequencies`; the recovered key is the final `sbox` field. -/
def crack (sbox : List Char) (L : Nat) (simple complexRule : Bool) (fuel : Nat) : EState :=
  match genRTableE sbox L with
  | .error e => poison (initState []) e
  | .ok rt =>
      analyzeFreqs ⟨rt, L, simple, complexRule⟩ fuel (initState (genFrequencyDict rt L))

/-- The state `_remove_from_freqs(c1, c2)` leaves behind: every class is a
non-empty list of pairs, every input set is non-empty and free of `c1`, and
every output set is free of `c2`. -/
def rmfClean (c1 c2 : Char) (fd : Freqs) : Prop :=
  ∀ p ∈ fd, p.2 ≠ [] ∧ ∀ q ∈ p.2, q.1 ≠ [] ∧ c1 ∉ q.1 ∧ c2 ∉ q.2

lemma sdiscard_not_mem (s : PSet) (c : Char) : c ∉ sdiscard s c := by
  intro h
  rw [sdiscard, List.mem_filter] at h
  simp at h

lemma sdiscard_of_not_mem (s : PSet) (c : Char) (h : c ∉ s) : sdiscard s c = s := by
  rw [sdiscard, List.filter_eq_self]
  intro a ha
  simp
  intro heq
  exact h (heq ▸ ha)

lemma rmPairs_done_spec (c1 c2 : Char) :
    ∀ l l', rmPairs c1 c2 l = .done l' →
      l' = l.map (fun q => (sdiscard q.1 c1, sdiscard q.2 c2)) ∧
      ∀ q ∈ l', q.1 ≠ [] := by
  intro l
  induction l with
  | nil =>
    intro l' h
    simp [rmPairs] at h
    subst h
    exact ⟨rfl, by simp⟩
  | cons p rest ih =>
    intro l' h
    obtain ⟨ins, outs⟩ := p
    simp only [rmPairs] at h
    cases he : (sdiscard ins c1).isEmpty with
    | true =>
      rw [he] at h
      simp at h
    | false =>
      rw [he] at h
      simp only [Bool.false_eq_true, if_false] at h
      cases hr : rmPairs c1 c2 rest with
      | dropped rest' =>
        rw [hr] at h
        simp at h
      | done rest' =>
        rw [hr] at h
        simp at h
        subst h
        obtain ⟨hmap, hne⟩ := ih rest' hr
        refine ⟨by simp [hmap], ?_⟩
        intro q hq
        rcases List.mem_cons.mp hq with rfl | hq
        · intro hcon
          simp only at hcon
          rw [hcon] at he
          simp at he
        · exact hne q hq

lemma rmKeys_finished_spec (c1 c2 : Char) :
    ∀ fd fd', rmKeys c1 c2 fd = .finished fd' →
      fd' = fd.map (fun p => (p.1, p.2.map (fun q => (sdiscard q.1 c1, sdiscard q.2 c2)))) ∧
      rmfClean c1 c2 fd' := by
  intro fd
  induction fd with
  | nil =>
    intro fd' h
    simp [rmKeys] at h
    subst h
    exact ⟨rfl, by intro p hp; simp at hp⟩
  | cons p rest ih =>
    intro fd' h
    obtain ⟨f, l⟩ := p
    simp only [rmKeys] at h
    cases hr : rmPairs c1 c2 l with
    | dropped l' =>
      rw [hr] at h
      simp at h
    | done l' =>
      rw [hr] at h
      simp only at h
      cases he : l'.isEmpty with
      | true =>
        rw [he] at h
        simp at h
      | false =>
        rw [he] at h
        simp only [Bool.false_eq_true, if_false] at h
        cases hk : rmKeys c1 c2 rest with
        | restart fd'' =>
          rw [hk] at h
          simp at h
        | finished fd'' =>
          rw [hk] at h
          simp at h
          subst h
          obtain ⟨hmap, hclean⟩ := ih fd'' hk
          obtain ⟨hlmap, hlne⟩ := rmPairs_done_spec c1 c2 l l' hr
          constructor
          · simp [hmap, hlmap]
          · intro q hq
            rcases List.mem_cons.mp hq with rfl | hq
            · refine ⟨by simpa using he, ?_⟩
              intro q' hq'
              refine ⟨hlne q' hq', ?_, ?_⟩
              · rw [hlmap] at hq'
                obtain ⟨q0, -, rfl⟩ := List.mem_map.mp hq'
                exact sdiscard_not_mem _ _
              · rw [hlmap] at hq'
                obtain ⟨q0, -, rfl⟩ := List.mem_map.mp hq'
                exact sdiscard_not_mem _ _
            · exact hclean q hq

lemma rmPairs_clean (c1 c2 : Char) :
    ∀ l, (∀ q ∈ l, q.1 ≠ [] ∧ c1 ∉ q.1 ∧ c2 ∉ q.2) → rmPairs c1 c2 l = .done l := by
  intro l
  induction l with
  | nil => intro _; rfl
  | cons p rest ih =>
    intro h
    obtain ⟨ins, outs⟩ := p
    obtain ⟨hne, hc1, hc2⟩ := h (ins, outs) (List.mem_cons_self _ _)
    have hd1 : sdiscard ins c1 = ins := sdiscard_of_not_mem _ _ hc1
    have hd2 : sdiscard outs c2 = outs := sdiscard_of_not_mem _ _ hc2
    have hemp : ins.isEmpty = false := by
      cases ins with
      | nil => exact absurd rfl hne
      | cons a t => rfl
    simp only [rmPairs, hd1, hd2, hemp, Bool.false_eq_true, if_false,
      ih (fun q hq => h q (List.mem_cons_of_mem _ hq))]

lemma rmKeys_clean (c1 c2 : Char) :
    ∀ fd, rmfClean c1 c2 fd → rmKeys c1 c2 fd = .finished fd := by
  intro fd
  induction fd with
  | nil => intro _; rfl
  | cons p rest ih =>
    intro h
    obtain ⟨f, l⟩ := p
    obtain ⟨hlne, hq⟩ := h (f, l) (List.mem_cons_self _ _)
    have hemp : l.isEmpty = false := by
      cases l with
      | nil => exact absurd rfl hlne
      | cons a t => rfl
    simp only [rmKeys, rmPairs_clean c1 c2 l hq, hemp, Bool.false_eq_true, if_false,
      ih (fun q hq' => h q (List.mem_cons_of_mem _ hq'))]

lemma rmLoop_clean (c1 c2 : Char) :
    ∀ fuel fd, fdSize fd < fuel → rmfClean c1 c2 (rmLoop c1 c2 fuel fd) := by
  intro fuel
  induction fuel with
  | zero =>
    intro fd h
    omega
  | succ n ih =>
    intro fd h
    unfold rmLoop
    cases hk : rmKeys c1 c2 fd with
    | finished fd' => exact (rmKeys_finished_spec c1 c2 fd fd' hk).2
    | restart fd' =>
      have := rmKeys_restart_size c1 c2 fd fd' hk
      exact ih fd' (by omega)

lemma removeFromFreqs_clean (c1 c2 : Char) (fd : Freqs) :
    rmfClean c1 c2 (removeFromFreqs c1 c2 fd) :=
  rmLoop_clean c1 c2 _ fd (by omega)

lemma removeFromFreqs_of_clean (c1 c2 : Char) (fd : Freqs) (h : rmfClean c1 c2 fd) :
    removeFromFreqs c1 c2 fd = fd := by
  unfold removeFromFreqs rmLoop
  rw [rmKeys_clean c1 c2 fd h]

/-- C7: cleanup is idempotent.  After `_remove_from_freqs(x, y)` has run, the
mapping `(x, y)` is fully removed, and running the cleanup a second time for
the same mapping changes nothing: no set loses further elements, no pair and
no frequency class is dropped. -/
theorem C7_cleanup_idempotent (x y : Char) (fd : Freqs) :
    removeFromFreqs x y (removeFromFreqs x y fd) = removeFromFreqs x y fd :=
  removeFromFreqs_of_clean x y _ (removeFromFreqs_clean x y fd)

lemma addToClass_keys (d : List (Nat × PSet)) (v : Nat) (k : Char) :
    (addToClass d v k).map Prod.fst =
      if v ∈ d.map Prod.fst then d.map Prod.fst else d.map Prod.fst ++ [v] := by
  induction d with
  | nil => simp [addToClass]
  | cons p rest ih =>
    obtain ⟨f, s⟩ := p
    by_cases hfv : f = v
    · subst hfv
      simp [addToClass]
    · simp only [addToClass, if_neg hfv, List.map_cons, ih]
      have : (v ∈ f :: rest.map Prod.fst) ↔ (v ∈ rest.map Prod.fst) := by
        simp [List.mem_cons]
        intro h
        exact absurd h.symm hfv
      by_cases hv : v ∈ rest.map Prod.fst
      · simp [hv, this]
      · simp [hv, this, Ne.symm hfv]

/-- A symbol `c` belongs to the class stored under key `f`. -/
def memClass (d : List (Nat × PSet)) (f : Nat) (c : Char) : Prop :=
  ∃ s, (f, s) ∈ d ∧ c ∈ s

lemma memClass_addToClass (d : List (Nat × PSet)) (v : Nat) (k : Char) (f : Nat) (c : Char) :
    memClass (addToClass d v k) f c ↔ memClass d f c ∨ (f = v ∧ c = k) := by
  induction d with
  | nil =>
    constructor
    · rintro ⟨s, hs, hc⟩
      simp only [addToClass, List.mem_singleton] at hs
      rw [Prod.mk.injEq] at hs
      obtain ⟨rfl, rfl⟩ := hs
      simp at hc
      exact Or.inr ⟨rfl, hc⟩
    · rintro (⟨s, hs, -⟩ | ⟨rfl, rfl⟩)
      · simp at hs
      · exact ⟨[c], by simp [addToClass], by simp⟩
  | cons p rest ih =>
    obtain ⟨g, s⟩ := p
    by_cases hgv : g = v
    · subst hgv
      simp only [addToClass, if_pos rfl]
      constructor
      · rintro ⟨s', hs', hc⟩
        rcases List.mem_cons.mp hs' with heq | hmem
        · have hf : f = g := by
            have := congrArg Prod.fst heq
            simpa using this
          have hsv : s' = if k ∈ s then s else s ++ [k] := by
            have := congrArg Prod.snd heq
            simpa using this
          subst hf
          by_cases hks : k ∈ s
          · rw [hsv, if_pos hks] at hc
            exact Or.inl ⟨s, List.mem_cons_self _ _, hc⟩
          · rw [hsv, if_neg hks] at hc
            rcases List.mem_append.mp hc with hc | hc
            · exact Or.inl ⟨s, List.mem_cons_self _ _, hc⟩
            · simp at hc
              exact Or.inr ⟨rfl, hc⟩
        · exact Or.inl ⟨s', List.mem_cons_of_mem _ hmem, hc⟩
      · rintro (⟨s', hs', hc⟩ | ⟨rfl, rfl⟩)
        · rcases List.mem_cons.mp hs' with heq | hmem
          · have hf : f = g := by
              have := congrArg Prod.fst heq
              simpa using this
            have hsv : s' = s := by
              have := congrArg Prod.snd heq
              simpa using this
            subst hf
            rw [hsv] at hc
            refine ⟨if k ∈ s then s else s ++ [k], List.mem_cons_self _ _, ?_⟩
            split
            · exact hc
            · exact List.mem_append.mpr (Or.inl hc)
          · exact ⟨s', List.mem_cons_of_mem _ hmem, hc⟩
        · refine ⟨if c ∈ s then s else s ++ [c], List.mem_cons_self _ _, ?_⟩
          split
          · assumption
          · simp
    · simp only [addToClass, if_neg hgv]
      constructor
      · rintro ⟨s', hs', hc⟩
        rcases List.mem_cons.mp hs' with heq | hmem
        · exact Or.inl ⟨s', by rw [heq]; exact List.mem_cons_self _ _, hc⟩
        · rcases ih.mp ⟨s', hmem, hc⟩ with h | h
          · obtain ⟨s'', hs'', hc''⟩ := h
            exact Or.inl ⟨s'', List.mem_cons_of_mem _ hs'', hc''⟩
          · exact Or.inr h
      · rintro (⟨s', hs', hc⟩ | ⟨rfl, rfl⟩)
        · rcases List.mem_cons.mp hs' with heq | hmem
          · exact ⟨s', by rw [heq]; exact List.mem_cons_self _ _, hc⟩
          · obtain ⟨s'', hs'', hc''⟩ := ih.mpr (Or.inl ⟨s', hmem, hc⟩)
            exact ⟨s'', List.mem_cons_of_mem _ hs'', hc''⟩
        · obtain ⟨s'', hs'', hc''⟩ := ih.mpr (Or.inr ⟨rfl, rfl⟩)
          exact ⟨s'', List.mem_cons_of_mem _ hs'', hc''⟩

lemma memClass_foldl (kvs : List (Char × Nat)) :
    ∀ (d : List (Nat × PSet)) (f : Nat) (c : Char),
      memClass (kvs.foldl (fun d kv => addToClass d kv.2 kv.1) d) f c ↔
        memClass d f c ∨ (c, f) ∈ kvs := by
  induction kvs with
  | nil => intro d f c; simp
  | cons kv rest ih =>
    intro d f c
    obtain ⟨k, v⟩ := kv
    rw [List.foldl_cons, ih, memClass_addToClass]
    constructor
    · rintro ((h | ⟨rfl, rfl⟩) | h)
      · exact Or.inl h
      · exact Or.inr (List.mem_cons_self _ _)
      · exact Or.inr (List.mem_cons_of_mem _ h)
    · rintro (h | h)
      · exact Or.inl (Or.inl h)
      · rcases List.mem_cons.mp h with heq | hmem
        · have h1 : c = k := congrArg Prod.fst heq
          have h2 : f = v := congrArg Prod.snd heq
          exact Or.inl (Or.inr ⟨h2, h1⟩)
        · exact Or.inr hmem

lemma mem_mostCommon (col : List Char) (c : Char) (f : Nat) :
    (c, f) ∈ mostCommon col ↔ c ∈ col ∧ col.count c = f := by
  unfold mostCommon
  rw [(List.perm_insertionSort _ _).mem_iff, List.mem_map]
  constructor
  · rintro ⟨c', hc', heq⟩
    have h1 : c' = c := congrArg Prod.fst heq
    have h2 : col.count c' = f := congrArg Prod.snd heq
    subst h1
    exact ⟨List.mem_dedup.mp hc', h2⟩
  · rintro ⟨hc, rfl⟩
    exact ⟨c, List.mem_dedup.mpr hc, rfl⟩

lemma memClass_colFreqDict (col : List Char) (f : Nat) (c : Char) :
    memClass (colFreqDict col) f c ↔ c ∈ col ∧ col.count c = f := by
  unfold colFreqDict
  rw [memClass_foldl, mem_mostCommon]
  simp [memClass]

lemma colFreqDict_keys_nodup (col : List Char) :
    ((colFreqDict col).map Prod.fst).Nodup := by
  unfold colFreqDict
  generalize mostCommon col = kvs
  suffices h : ∀ (d : List (Nat × PSet)), (d.map Prod.fst).Nodup →
      ((kvs.foldl (fun d kv => addToClass d kv.2 kv.1) d).map Prod.fst).Nodup by
    exact h [] (by simp)
  induction kvs with
  | nil => intro d hd; simpa using hd
  | cons kv rest ih =>
    intro d hd
    rw [List.foldl_cons]
    apply ih
    rw [addToClass_keys]
    split
    · exact hd
    · next hnot =>
      rw [List.nodup_append]
      exact ⟨hd, List.nodup_singleton _, by simpa using hnot⟩

instance : IsTotal (Char × Nat) (fun a b => b.2 ≤ a.2) :=
  ⟨fun a b => le_total b.2 a.2⟩

instance : IsTrans (Char × Nat) (fun a b => b.2 ≤ a.2) :=
  ⟨fun _ _ _ h1 h2 => le_trans h2 h1⟩

lemma mostCommon_counts_sorted (col : List Char) :
    ((mostCommon col).map Prod.snd).Sorted (fun a b => b ≤ a) := by
  have hs : (mostCommon col).Sorted (fun a b => b.2 ≤ a.2) :=
    List.sorted_insertionSort _ _
  exact List.Pairwise.map _ (fun a b h => h) hs

lemma foldl_addToClass_keys_lt (kvs : List (Char × Nat)) :
    ∀ (d : List (Nat × PSet)),
      ((kvs.map Prod.snd).Sorted (fun a b => b ≤ a)) →
      ((d.map Prod.fst).Pairwise (fun a b => b < a)) →
      (∀ v ∈ kvs.map Prod.snd, ∀ g ∈ d.map Prod.fst, v ≤ g) →
      (((kvs.foldl (fun d kv => addToClass d kv.2 kv.1) d).map Prod.fst).Pairwise
        (fun a b => b < a)) := by
  induction kvs with
  | nil => intro d _ hd _; simpa using hd
  | cons kv rest ih =>
    intro d hsort hd hle
    obtain ⟨k, v⟩ := kv
    rw [List.foldl_cons]
    have hsort' : (rest.map Prod.snd).Sorted (fun a b => b ≤ a) := by
      rw [List.map_cons] at hsort
      exact List.Sorted.of_cons hsort
    have hvle : ∀ v' ∈ rest.map Prod.snd, v' ≤ v := by
      intro v' hv'
      rw [List.map_cons] at hsort
      exact List.rel_of_sorted_cons hsort v' hv'
    apply ih
    · exact hsort'
    · rw [addToClass_keys]
      split
      · exact hd
      · next hnot =>
        rw [List.pairwise_append]
        refine ⟨hd, by simp, ?_⟩
        intro a ha b hb
        simp at hb
        rw [hb]
        simp only at hnot
        have h1 : v ≤ a := hle v (by simp) a ha
        have h2 : v ≠ a := by
          intro hcon
          exact hnot (hcon ▸ ha)
        omega
    · intro v' hv' g hg
      rw [addToClass_keys] at hg
      split at hg
      · exact hle v' (List.mem_cons_of_mem _ hv') g hg
      · rcases List.mem_append.mp hg with hg | hg
        · exact hle v' (List.mem_cons_of_mem _ hv') g hg
        · simp at hg
          subst hg
          exact hvle v' hv'

/-- The frequency keys of a per-column dict are strictly decreasing. -/
lemma colFreqDict_keys_sorted (col : List Char) :
    ((colFreqDict col).map Prod.fst).Pairwise (fun a b => b < a) := by
  unfold colFreqDict
  apply foldl_addToClass_keys_lt
  · exact mostCommon_counts_sorted col
  · simp
  · intro v _ g hg
    simp at hg

/-- A pair is stored in the frequency dict under key `f`. -/
def memPair (fd : Freqs) (f : Nat) (p : FPair) : Prop :=
  ∃ l, (f, l) ∈ fd ∧ p ∈ l

lemma memPair_addPair (fd : Freqs) (f0 : Nat) (p0 : FPair) (f : Nat) (p : FPair) :
    memPair (addPair fd f0 p0) f p ↔ memPair fd f p ∨ (f = f0 ∧ p = p0) := by
  induction fd with
  | nil =>
    constructor
    · rintro ⟨l, hl, hp⟩
      simp only [addPair, List.mem_singleton] at hl
      rw [Prod.mk.injEq] at hl
      obtain ⟨rfl, rfl⟩ := hl
      simp at hp
      exact Or.inr ⟨rfl, hp⟩
    · rintro (⟨l, hl, -⟩ | ⟨rfl, rfl⟩)
      · simp at hl
      · exact ⟨[p], by simp [addPair], by simp⟩
  | cons q rest ih =>
    obtain ⟨g, l⟩ := q
    by_cases hgf : g = f0
    · subst hgf
      simp only [addPair, if_pos rfl]
      constructor
      · rintro ⟨l', hl', hp⟩
        rcases List.mem_cons.mp hl' with heq | hmem
        · have h1 : f = g := by
            have := congrArg Prod.fst heq
            simpa using this
          have h2 : l' = l ++ [p0] := by
            have := congrArg Prod.snd heq
            simpa using this
          subst h1
          rw [h2] at hp
          rcases List.mem_append.mp hp with hp | hp
          · exact Or.inl ⟨l, List.mem_cons_self _ _, hp⟩
          · simp at hp
            exact Or.inr ⟨rfl, hp⟩
        · exact Or.inl ⟨l', List.mem_cons_of_mem _ hmem, hp⟩
      · rintro (⟨l', hl', hp⟩ | ⟨rfl, rfl⟩)
        · rcases List.mem_cons.mp hl' with heq | hmem
          · have h1 : f = g := by
              have := congrArg Prod.fst heq
              simpa using this
            have h2 : l' = l := by
              have := congrArg Prod.snd heq
              simpa using this
            subst h1
            rw [h2] at hp
            exact ⟨l ++ [p0], List.mem_cons_self _ _, List.mem_append.mpr (Or.inl hp)⟩
          · exact ⟨l', List.mem_cons_of_mem _ hmem, hp⟩
        · exact ⟨l ++ [p], List.mem_cons_self _ _, by simp⟩
    · simp only [addPair, if_neg hgf]
      constructor
      · rintro ⟨l', hl', hp⟩
        rcases List.mem_cons.mp hl' with heq | hmem
        · exact Or.inl ⟨l', by rw [heq]; exact List.mem_cons_self _ _, hp⟩
        · rcases ih.mp ⟨l', hmem, hp⟩ with h | h
          · obtain ⟨l'', hl'', hp''⟩ := h
            exact Or.inl ⟨l'', List.mem_cons_of_mem _ hl'', hp''⟩
          · exact Or.inr h
      · rintro (⟨l', hl', hp⟩ | ⟨rfl, rfl⟩)
        · rcases List.mem_cons.mp hl' with heq | hmem
          · exact ⟨l', by rw [heq]; exact List.mem_cons_self _ _, hp⟩
          · obtain ⟨l'', hl'', hp''⟩ := ih.mpr (Or.inl ⟨l', hmem, hp⟩)
            exact ⟨l'', List.mem_cons_of_mem _ hl'', hp''⟩
        · obtain ⟨l'', hl'', hp''⟩ := ih.mpr (Or.inr ⟨rfl, rfl⟩)
          exact ⟨l'', List.mem_cons_of_mem _ hl'', hp''⟩

lemma memPair_contrib_foldl (xs : List ((Nat × PSet) × PSet)) :
    ∀ (fd : Freqs) (f : Nat) (p : FPair),
      memPair (xs.foldl (fun fd x => addPair fd x.1.1 (x.1.2, x.2)) fd) f p ↔
        memPair fd f p ∨ ∃ x ∈ xs, f = x.1.1 ∧ p = (x.1.2, x.2) := by
  induction xs with
  | nil => intro fd f p; simp
  | cons x rest ih =>
    intro fd f p
    rw [List.foldl_cons, ih, memPair_addPair]
    constructor
    · rintro ((h | h) | ⟨y, hy, hh⟩)
      · exact Or.inl h
      · exact Or.inr ⟨x, List.mem_cons_self _ _, h.1, h.2⟩
      · exact Or.inr ⟨y, List.mem_cons_of_mem _ hy, hh⟩
    · rintro (h | ⟨y, hy, hh⟩)
      · exact Or.inl (Or.inl h)
      · rcases List.mem_cons.mp hy with rfl | hy'
        · exact Or.inl (Or.inr hh)
        · exact Or.inr ⟨y, hy', hh⟩

/-- Membership in `_gen_frequency_dict`: exactly the pairs contributed by some
input column, each stored under the frequency key of the input column's
class. -/
lemma memPair_genFrequencyDict (rt : List (List Char)) (L : Nat) (f : Nat) (p : FPair) :
    memPair (genFrequencyDict rt L) f p ↔
      ∃ i < L, ∃ x ∈ contribFor rt L i, f = x.1.1 ∧ p = (x.1.2, x.2) := by
  unfold genFrequencyDict
  suffices h : ∀ (is : List Nat) (fd : Freqs),
      memPair (is.foldl
        (fun fd i => (contribFor rt L i).foldl (fun fd x => addPair fd x.1.1 (x.1.2, x.2)) fd)
        fd) f p ↔
      memPair fd f p ∨ ∃ i ∈ is, ∃ x ∈ contribFor rt L i, f = x.1.1 ∧ p = (x.1.2, x.2) by
    rw [h (List.range L) []]
    simp [memPair, List.mem_range]
  intro is
  induction is with
  | nil => intro fd; simp
  | cons i rest ih =>
    intro fd
    rw [List.foldl_cons, ih, memPair_contrib_foldl]
    constructor
    · rintro ((h | h) | ⟨j, hj, hh⟩)
      · exact Or.inl h
      · exact Or.inr ⟨i, List.mem_cons_self _ _, h⟩
      · exact Or.inr ⟨j, List.mem_cons_of_mem _ hj, hh⟩
    · rintro (h | ⟨j, hj, hh⟩)
      · exact Or.inl (Or.inl h)
      · rcases List.mem_cons.mp hj with rfl | hj'
        · exact Or.inl (Or.inr hh)
        · exact Or.inr ⟨j, hj', hh⟩

/-- Claim C1 as frozen: a pair is contributed for input column `i` exactly
when column `i` and column `i+L` have classes sharing that frequency count,
the contributed pair consists of those two classes, and it is stored under the
shared count. -/
def c1Claim (rt : List (List Char)) (L : Nat) : Prop :=
  ∀ i < L,
    (∀ x ∈ contribFor rt L i,
      (x.1.1, x.1.2) ∈ colFreqDict (column rt i) ∧
      (x.1.1, x.2) ∈ colFreqDict (column rt (i + L))) ∧
    (∀ p1 ∈ colFreqDict (column rt i), ∀ p2 ∈ colFreqDict (column rt (i + L)),
      p1.1 = p2.1 → ((p1.1, p1.2), p2.2) ∈ contribFor rt L i)

instance c1ClaimDecidable (rt : List (List Char)) (L : Nat) : Decidable (c1Claim rt L) := by
  unfold c1Claim
  infer_instance

/-- A well-formed 27-row relationship table (2L = 6 columns over the alphabet)
on which the frequency model pairs two classes of different frequency counts:
column 0 has count structure 14/13 while column 3 is constant (count 27), so
the zip in `_gen_frequency_dict` pairs the count-14 class of column 0 with the
count-27 class of column 3 and stores the pair under key 14. -/
def rt0c1 : List (List Char) :=
  (List.range 27).map (fun r => [if r < 14 then 'a' else 'b', 'a', 'a', 'c', 'a', 'a'])

/-- C1 counterexample: on the relationship table `rt0c1` the claim fails; the
code pairs classes by ordinal position in the two count-ordered listings, not
by matching frequency counts. -/
theorem C1_counterexample : ¬ c1Claim rt0c1 3 := by
  decide

lemma class_unique (d : List (Nat × PSet)) (hnd : (d.map Prod.fst).Nodup) (f : Nat)
    (s s' : PSet) (h1 : (f, s) ∈ d) (h2 : (f, s') ∈ d) : s = s' := by
  induction d with
  | nil => simp at h1
  | cons p rest ih =>
    obtain ⟨g, t⟩ := p
    rw [List.map_cons, List.nodup_cons] at hnd
    rcases List.mem_cons.mp h1 with he1 | hm1 <;> rcases List.mem_cons.mp h2 with he2 | hm2
    · have e1 : s = t := congrArg Prod.snd he1
      have e2 : s' = t := congrArg Prod.snd he2
      rw [e1, e2]
    · exfalso
      apply hnd.1
      have hf : f = g := congrArg Prod.fst he1
      rw [← hf]
      exact List.mem_map.mpr ⟨(f, s'), hm2, rfl⟩
    · exfalso
      apply hnd.1
      have hf : f = g := congrArg Prod.fst he2
      rw [← hf]
      exact List.mem_map.mpr ⟨(f, s), hm1, rfl⟩
    · exact ih hnd.2 hm1 hm2

/-- The corrected description of the frequency-model pairing (claim C1
amended): classes are listed per column in strictly decreasing count order,
each class holds exactly the symbols with that count, column `i`'s `k`-th
class is paired with column `i+L`'s `k`-th class for `k` up to the shorter
listing, and each pair is stored under the count key of column `i`'s class. -/
def c1Amended (rt : List (List Char)) (L i : Nat) : Prop :=
  (((colFreqDict (column rt i)).map Prod.fst).Pairwise (fun a b => b < a)) ∧
  (∀ p ∈ colFreqDict (column rt i), ∀ c : Char,
      c ∈ p.2 ↔ c ∈ column rt i ∧ (column rt i).count c = p.1) ∧
  ((contribFor rt L i).length =
    min (colFreqDict (column rt i)).length (colFreqDict (column rt (i + L))).length) ∧
  (∀ k, k < (colFreqDict (column rt i)).length →
      k < (colFreqDict (column rt (i + L))).length →
      (contribFor rt L i).getD k ((0, []), []) =
        ((colFreqDict (column rt i)).getD k (0, []),
          ((colFreqDict (column rt (i + L))).getD k (0, [])).2)) ∧
  (∀ x ∈ contribFor rt L i, memPair (genFrequencyDict rt L) x.1.1 (x.1.2, x.2))

/-- C1 amended: on every relationship table the frequency model pairs classes
of column `i` and column `i+L` by ordinal position in the two count-descending
listings, truncating to the shorter one, and stores each pair under the count
of column `i`'s class (even when column `i+L`'s class has a different
count). -/
theorem C1_pairing_by_position (rt : List (List Char)) (L i : Nat) (hi : i < L) :
    c1Amended rt L i := by
  refine ⟨colFreqDict_keys_sorted _, ?_, ?_, ?_, ?_⟩
  · intro p hp c
    constructor
    · intro hc
      have : memClass (colFreqDict (column rt i)) p.1 c := ⟨p.2, by simpa using hp, hc⟩
      exact (memClass_colFreqDict _ _ _).mp this
    · intro hc
      obtain ⟨s', hs', hc'⟩ := (memClass_colFreqDict (column rt i) p.1 c).mpr hc
      have := class_unique _ (colFreqDict_keys_nodup (column rt i)) p.1 s' p.2 hs'
        (by simpa using hp)
      rw [← this]
      exact hc'
  · unfold contribFor
    rw [List.length_zip, List.length_map]
  · intro k hk1 hk2
    have hlen : (contribFor rt L i).length =
        min (colFreqDict (column rt i)).length (colFreqDict (column rt (i + L))).length := by
      unfold contribFor
      rw [List.length_zip, List.length_map]
    have hk : k < (contribFor rt L i).length := by omega
    rw [List.getD_eq_getElem _ _ hk, List.getD_eq_getElem _ _ hk1, List.getD_eq_getElem _ _ hk2]
    unfold contribFor
    simp [List.getElem_zip, List.getElem_map]
  · intro x hx
    exact (memPair_genFrequencyDict rt L x.1.1 (x.1.2, x.2)).mpr ⟨i, hi, x, hx, rfl, rfl⟩

/-- Witness for C1 amended at a concrete table and position. -/
theorem C1_pairing_witness : 0 < 3 ∧ c1Amended rt0c1 3 0 :=
  ⟨by decide, C1_pairing_by_position rt0c1 3 0 (by decide)⟩

/-- The comparison guard of the COMPLEX rule as the code implements it:
different frequency keys AND different class-list positions. -/
def c2Guard (e1 e2 : Nat × Nat × FPair) : Bool :=
  decide (e1.1 ≠ e2.1 ∧ e1.2.1 ≠ e2.2.1)

/-- The number of ordered entry pairs the code's COMPLEX rule compares (its
`num_sets_compared_complex` statistic over one full scan). -/
def c2ComparedCount (fd : Freqs) : Nat :=
  ((entriesOf fd).map (fun e1 => (entriesOf fd).countP (c2Guard e1))).sum

/-- Modelled from claim C2's words: the pairs the claim says are considered,
namely every two pair-entries differing by class-list position, regardless of
their frequency keys. -/
def c2ClaimComparedCount (fd : Freqs) : Nat :=
  ((entriesOf fd).map (fun e1 =>
    (entriesOf fd).countP (fun e2 => decide (e1.2.1 ≠ e2.2.1)))).sum

/-- What a COMPLEX-rule commit of `x -> y` means for the entry pair that
fired: a singleton input-set intersection whose sole element is `x`, with `y`
popped from the output-set intersection, or else a singleton input-set
difference with `y` popped from the output-set difference. -/
def c2CommitSpec (e1 e2 : Nat × Nat × FPair) (x y : Char) : Prop :=
  (sinter e1.2.2.1 e2.2.2.1 = [x] ∧ sinter e1.2.2.2 e2.2.2.2 ≠ [] ∧
    (sinter e1.2.2.2 e2.2.2.2).headD '.' = y) ∨
  ((sinter e1.2.2.1 e2.2.2.1).length ≠ 1 ∧ sdiff e1.2.2.1 e2.2.2.1 = [x] ∧
    sdiff e1.2.2.2 e2.2.2.2 ≠ [] ∧ (sdiff e1.2.2.2 e2.2.2.2).headD '.' = y)

lemma length_one_eq (l : List Char) (h : l.length = 1) : l = [(l.head?).getD '.'] := by
  cases l with
  | nil => simp at h
  | cons a t =>
    cases t with
    | nil => rfl
    | cons b t2 => simp at h

lemma complexInner_miss (e1 : Nat × Nat × FPair) :
    ∀ l n, complexInner e1 l = .miss n → n = l.countP (c2Guard e1) := by
  obtain ⟨f1, i, s1in, s1out⟩ := e1
  intro l
  induction l with
  | nil =>
    intro n h
    simp [complexInner] at h
    simp [h.symm]
  | cons e2 rest ih =>
    intro n h
    obtain ⟨f2, j, s2in, s2out⟩ := e2
    simp only [complexInner] at h
    rw [List.countP_cons]
    by_cases hg : f1 ≠ f2 ∧ i ≠ j
    · rw [if_pos hg] at h
      have hgb : c2Guard (f1, i, s1in, s1out) (f2, j, s2in, s2out) = true := by
        simp only [c2Guard, decide_eq_true_eq]
        exact hg
      rw [hgb]
      by_cases h1 : (sinter s1in s2in).length = 1
      · rw [if_pos h1] at h
        cases hs : sinter s1out s2out with
        | nil => rw [hs] at h; simp at h
        | cons y ys => rw [hs] at h; simp at h
      · rw [if_neg h1] at h
        by_cases h2 : (sdiff s1in s2in).length = 1
        · rw [if_pos h2] at h
          cases hs : sdiff s1out s2out with
          | nil => rw [hs] at h; simp at h
          | cons y ys => rw [hs] at h; simp at h
        · rw [if_neg h2] at h
          cases hr : complexInner (f1, i, s1in, s1out) rest with
          | hit x y m => rw [hr] at h; simp at h
          | hitErr m => rw [hr] at h; simp at h
          | miss m =>
            rw [hr] at h
            simp at h
            rw [← h, ih m hr]
            simp
    · rw [if_neg hg] at h
      have hgb : c2Guard (f1, i, s1in, s1out) (f2, j, s2in, s2out) = false := by
        simp only [c2Guard, decide_eq_false_iff_not]
        exact hg
      rw [hgb]
      simp [ih n h]

lemma complexInner_hit (e1 : Nat × Nat × FPair) :
    ∀ l x y n, complexInner e1 l = .hit x y n →
      ∃ e2 ∈ l, (e1.1 ≠ e2.1 ∧ e1.2.1 ≠ e2.2.1) ∧ c2CommitSpec e1 e2 x y := by
  obtain ⟨f1, i, s1in, s1out⟩ := e1
  intro l
  induction l with
  | nil =>
    intro x y n h
    simp [complexInner] at h
  | cons e2 rest ih =>
    intro x y n h
    obtain ⟨f2, j, s2in, s2out⟩ := e2
    simp only [complexInner] at h
    by_cases hg : f1 ≠ f2 ∧ i ≠ j
    · rw [if_pos hg] at h
      by_cases h1 : (sinter s1in s2in).length = 1
      · rw [if_pos h1] at h
        cases hs : sinter s1out s2out with
        | nil => rw [hs] at h; simp at h
        | cons y0 ys =>
          rw [hs] at h
          simp at h
          obtain ⟨hx, hy, -⟩ := h
          refine ⟨(f2, j, s2in, s2out), List.mem_cons_self _ _, hg, Or.inl ?_⟩
          refine ⟨?_, by simp [hs], by simp [hs, hy]⟩
          show sinter s1in s2in = [x]
          rw [← hx]
          exact length_one_eq _ h1
      · rw [if_neg h1] at h
        by_cases h2 : (sdiff s1in s2in).length = 1
        · rw [if_pos h2] at h
          cases hs : sdiff s1out s2out with
          | nil => rw [hs] at h; simp at h
          | cons y0 ys =>
            rw [hs] at h
            simp at h
            obtain ⟨hx, hy, -⟩ := h
            refine ⟨(f2, j, s2in, s2out), List.mem_cons_self _ _, hg, Or.inr ?_⟩
            refine ⟨h1, ?_, by simp [hs], by simp [hs, hy]⟩
            show sdiff s1in s2in = [x]
            rw [← hx]
            exact length_one_eq _ h2
        · rw [if_neg h2] at h
          cases hr : complexInner (f1, i, s1in, s1out) rest with
          | hit x0 y0 m =>
            rw [hr] at h
            simp at h
            obtain ⟨hx, hy, -⟩ := h
            obtain ⟨e2', he2', hgg, hcs⟩ := ih x0 y0 m hr
            exact ⟨e2', List.mem_cons_of_mem _ he2', hgg, hx ▸ hy ▸ hcs⟩
          | hitErr m => rw [hr] at h; simp at h
          | miss m => rw [hr] at h; simp at h
    · rw [if_neg hg] at h
      obtain ⟨e2', he2', hgg, hcs⟩ := ih x y n h
      exact ⟨e2', List.mem_cons_of_mem _ he2', hgg, hcs⟩

lemma complexScanAux_miss (all : List (Nat × Nat × FPair)) :
    ∀ es n, complexScanAux all es = .miss n →
      n = (es.map (fun e1 => all.countP (c2Guard e1))).sum := by
  intro es
  induction es with
  | nil =>
    intro n h
    simp [complexScanAux] at h
    simp [h.symm]
  | cons e1 rest ih =>
    intro n h
    simp only [complexScanAux] at h
    cases hr : complexInner e1 all with
    | hit x y m => rw [hr] at h; simp at h
    | hitErr m => rw [hr] at h; simp at h
    | miss m =>
      rw [hr] at h
      cases hr2 : complexScanAux all rest with
      | hit x y m2 => rw [hr2] at h; simp at h
      | hitErr m2 => rw [hr2] at h; simp at h
      | miss m2 =>
        rw [hr2] at h
        simp at h
        rw [← h, complexInner_miss e1 all m hr, ih m2 hr2]
        simp

lemma complexScanAux_hit (all : List (Nat × Nat × FPair)) :
    ∀ es x y n, complexScanAux all es = .hit x y n →
      ∃ e1 ∈ es, ∃ e2 ∈ all, (e1.1 ≠ e2.1 ∧ e1.2.1 ≠ e2.2.1) ∧ c2CommitSpec e1 e2 x y := by
  intro es
  induction es with
  | nil =>
    intro x y n h
    simp [complexScanAux] at h
  | cons e1 rest ih =>
    intro x y n h
    simp only [complexScanAux] at h
    cases hr : complexInner e1 all with
    | hit x0 y0 m =>
      rw [hr] at h
      simp at h
      obtain ⟨hx, hy, -⟩ := h
      obtain ⟨e2, he2, hgg, hcs⟩ := complexInner_hit e1 all x0 y0 m hr
      exact ⟨e1, List.mem_cons_self _ _, e2, he2, hgg, hx ▸ hy ▸ hcs⟩
    | hitErr m => rw [hr] at h; simp at h
    | miss m =>
      rw [hr] at h
      cases hr2 : complexScanAux all rest with
      | hit x0 y0 m2 =>
        rw [hr2] at h
        simp at h
        obtain ⟨hx, hy, -⟩ := h
        obtain ⟨e1', he1', e2, he2, hgg, hcs⟩ := ih x0 y0 m2 hr2
        exact ⟨e1', List.mem_cons_of_mem _ he1', e2, he2, hgg, hx ▸ hy ▸ hcs⟩
      | hitErr m2 => rw [hr2] at h; simp at h
      | miss m2 => rw [hr2] at h; simp at h

/-- C2 amended: the COMPLEX rule considers exactly the ordered entry pairs
whose frequency keys differ AND whose class-list positions differ (counted by
`num_sets_compared_complex`); when it commits `x -> y`, some considered pair
has a singleton input-set intersection `[x]` with `y` popped from the
output-set intersection, or else a singleton input-set difference `[x]` with
`y` popped from the output-set difference. -/
theorem C2_complex_guard (fd : Freqs) :
    (∀ n, complexScan fd = .miss n → n = c2ComparedCount fd) ∧
    (∀ x y n, complexScan fd = .hit x y n →
      ∃ e1 ∈ entriesOf fd, ∃ e2 ∈ entriesOf fd,
        (e1.1 ≠ e2.1 ∧ e1.2.1 ≠ e2.2.1) ∧ c2CommitSpec e1 e2 x y) := by
  constructor
  · intro n h
    exact complexScanAux_miss (entriesOf fd) (entriesOf fd) n h
  · intro x y n h
    exact complexScanAux_hit (entriesOf fd) (entriesOf fd) x y n h

/-- The concrete secret key `'bcdefghijklmnopqrstuvwxyz_a'` (the alphabet
shifted by one). -/
def sb1 : List Char := "bcdefghijklmnopqrstuvwxyz_a".toList

/-- The relationship table `_gen_relationship_table` produces for the key
`sb1` and input length 3 (see `genRTableE_sb1`). -/
def rtSb1 : List (List Char) :=
  ["pxxipp", "xffqyy", "eooygg", "mxxfpp", "uffnyy", "boovgg", "jxxcpp", "rffkyy",
   "zoosgg", "gxx_pp", "offhyy", "woopgg", "dxxxpp", "lffeyy", "toomgg", "axxupp",
   "iffbyy", "qoojgg", "yxxrpp", "fffzyy", "nooggg", "vxxopp", "cffwyy", "koodgg",
   "sxxlpp", "_fftyy", "hooagg"].map String.toList

lemma genRTableE_sb1 : genRTableE sb1 3 = .ok rtSb1 := by
  decide

/-- C2 counterexample: on the frequency model generated from the real
relationship table for key `sb1` and input length 3, the frequency dict holds
two pair-entries under key 9 at class-list positions 0 and 1.  The claim says
the complex rule considers every two entries differing by position regardless
of frequency key (4 ordered pairs here), but the code compares only entries
with different keys and different positions (2 ordered pairs): the full scan
commits nothing and counts exactly 2 comparisons. -/
theorem C2_counterexample :
    complexScan (genFrequencyDict rtSb1 3) = .miss 2 ∧
    c2ClaimComparedCount (genFrequencyDict rtSb1 3) = 4 := by
  constructor
  · decide
  · decide

/-- Witness for C2 amended: the miss-count characterization evaluated at the
same concrete frequency model. -/
theorem C2_guard_witness : (2 : Nat) = c2ComparedCount (genFrequencyDict rtSb1 3) :=
  (C2_complex_guard (genFrequencyDict rtSb1 3)).1 2 (by decide)

lemma listAt_ok_inv (l : List Char) (i : Nat) (v : Char) (h : listAt l i = .ok v) :
    i < l.length ∧ v = l.getD i 'a' := by
  unfold listAt at h
  split at h
  · next hlt =>
    refine ⟨hlt, ?_⟩
    rw [List.getD_eq_getElem _ _ hlt]
    exact (Except.ok.injEq .. ▸ h).symm
  · cases h

lemma alphabetAt2_ok_inv (a b v : Char) (h : alphabetAt2 a b = .ok v) :
    a ∈ alphabet ∧ b ∈ alphabet ∧
      v = alphabet.getD ((alphabet.indexOf a + alphabet.indexOf b) % 27) 'a' := by
  unfold alphabetAt2 alphaIndex2 alphaIndex1 at h
  by_cases ha : a ∈ alphabet
  · by_cases hb : b ∈ alphabet
    · simp only [ha, hb, if_pos, bind, Except.bind, pure, Except.pure] at h
      refine ⟨ha, hb, ?_⟩
      obtain ⟨hlt, hv⟩ := listAt_ok_inv _ _ _ h
      exact hv
    · simp only [ha, hb, if_pos, if_neg, bind, Except.bind] at h
      cases h
  · simp only [ha, if_neg, bind, Except.bind] at h
    cases h

lemma mapM_ok_forall₂ {α β : Type} (f : α → Except Err β) :
    ∀ (l : List α) (ys : List β), l.mapM' f = .ok ys →
      List.Forall₂ (fun a b => f a = .ok b) l ys := by
  intro l
  induction l with
  | nil =>
    intro ys h
    obtain rfl : ([] : List β) = ys := Except.ok.inj h
    exact List.Forall₂.nil
  | cons a t ih =>
    intro ys h
    simp only [List.mapM'_cons, bind, Except.bind, pure, Except.pure] at h
    cases hfa : f a with
    | error e => rw [hfa] at h; cases h
    | ok b =>
      rw [hfa] at h
      simp only at h
      cases hmt : t.mapM' f with
      | error e => rw [hmt] at h; cases h
      | ok bs =>
        rw [hmt] at h
        simp only [Except.ok.injEq] at h
        rw [← h]
        exact List.Forall₂.cons hfa (ih bs hmt)

lemma mapM_all_ok (f : Nat → Except Err Char) (P : Char → Prop) :
    ∀ (l : List Nat), (∀ i ∈ l, ∃ c, f i = .ok c ∧ P c) →
      ∃ ys, l.mapM' f = .ok ys ∧ ys.length = l.length ∧ ∀ c ∈ ys, P c := by
  intro l
  induction l with
  | nil => intro _; exact ⟨[], rfl, rfl, by simp⟩
  | cons a t ih =>
    intro h
    obtain ⟨c, hc, hPc⟩ := h a (List.mem_cons_self a t)
    obtain ⟨ys, hys, hlen, hall⟩ := ih (fun i hi => h i (List.mem_cons_of_mem a hi))
    refine ⟨c :: ys, ?_, by simp [hlen], ?_⟩
    · simp [List.mapM'_cons, hc, hys, bind, Except.bind, pure, Except.pure]
    · intro d hd
      rcases List.mem_cons.mp hd with rfl | hd
      · exact hPc
      · exact hall d hd

lemma substituteE_ok_alpha (sbox text : List Char) (hs : sbox.length = 27)
    (hsa : ∀ d ∈ sbox, d ∈ alphabet) (ht : text ≠ [])
    (hta : ∀ d ∈ text, d ∈ alphabet) :
    ∃ ys, substituteE sbox text = .ok ys ∧ ys.length = text.length ∧
      ∀ d ∈ ys, d ∈ alphabet := by
  have h0 : 0 < text.length := List.length_pos.mpr ht
  have hc0 : text[0] ∈ alphabet := hta _ (List.getElem_mem h0)
  have hidx0 : alphabet.indexOf text[0] < sbox.length := by
    rw [hs]
    exact List.indexOf_lt_length.mpr hc0
  have hokhead : sboxAt1 sbox text[0] = .ok sbox[alphabet.indexOf text[0]] := by
    simp [sboxAt1, alphaIndex1, hc0, listAt_ok _ _ hidx0, bind, Except.bind]
  have hstep : ∀ i ∈ List.range' 1 (text.length - 1),
      ∃ c, (do
          let a ← listAt text (i - 1)
          let b ← listAt text i
          sboxAt2 sbox a b) = .ok c ∧ c ∈ sbox := by
    intro i hi
    rw [List.mem_range'] at hi
    obtain ⟨t, ht', rfl⟩ := hi
    have e1 : 1 + 1 * t - 1 = t := by omega
    have e2 : 1 + 1 * t = t + 1 := by omega
    rw [e1, e2]
    have hb1 : t < text.length := by omega
    have hb2 : t + 1 < text.length := by omega
    rw [listAt_ok _ _ hb1, listAt_ok _ _ hb2]
    have ha : text[t] ∈ alphabet := hta _ (List.getElem_mem hb1)
    have hb : text[t + 1] ∈ alphabet := hta _ (List.getElem_mem hb2)
    have hidx : (alphabet.indexOf text[t] +
        alphabet.indexOf text[t + 1]) % alphabet.length < sbox.length := by
      rw [hs]
      exact Nat.mod_lt _ (by decide)
    refine ⟨sbox[(alphabet.indexOf text[t] +
        alphabet.indexOf text[t + 1]) % alphabet.length], ?_, List.getElem_mem hidx⟩
    simp [sboxAt2, alphaIndex2, alphaIndex1, ha, hb, listAt_ok _ _ hidx,
      bind, Except.bind, pure, Except.pure]
  obtain ⟨ys, hmap, hlen, hmem⟩ := mapM_all_ok _ (fun c => c ∈ sbox) _ hstep
  refine ⟨sbox[alphabet.indexOf text[0]] :: ys, ?_, ?_, ?_⟩
  · unfold substituteE
    rw [listAt_ok text 0 h0, ← List.mapM'_eq_mapM]
    simp only [bind, Except.bind] at hmap
    simp [bind, Except.bind, hokhead, hmap, pure, Except.pure]
  · simp only [List.length_cons, hlen, List.length_range']
    omega
  · intro d hd
    rcases List.mem_cons.mp hd with rfl | hd
    · exact hsa _ (List.getElem_mem hidx0)
    · exact hsa d (hmem d hd)

lemma roundsE_ok_alpha (sbox : List Char) (hs : sbox.length = 27)
    (hsa : ∀ d ∈ sbox, d ∈ alphabet) :
    ∀ n text, text ≠ [] → (∀ d ∈ text, d ∈ alphabet) →
      ∃ ys, roundsE sbox n text = .ok ys ∧ ys.length = text.length ∧
        ∀ d ∈ ys, d ∈ alphabet := by
  intro n
  induction n with
  | zero =>
    intro text ht hta
    exact ⟨text, rfl, rfl, hta⟩
  | succ k ih =>
    intro text ht hta
    obtain ⟨ys, hys, hlen, hmem⟩ := substituteE_ok_alpha sbox text hs hsa ht hta
    have hplen : (permute ys).length = text.length := by
      rw [permute_length_eq, hlen]
    have hpne : permute ys ≠ [] := by
      intro hcon
      rw [hcon] at hplen
      exact ht (List.eq_nil_of_length_eq_zero (by simpa using hplen.symm))
    have hpmem : ∀ d ∈ permute ys, d ∈ alphabet := fun d hd => hmem d (permute_mem ys d hd)
    obtain ⟨zs, hzs, hzlen, hzmem⟩ := ih (permute ys) hpne hpmem
    refine ⟨zs, ?_, by rw [hzlen, hplen], hzmem⟩
    simp only [roundsE, bind, Except.bind, singleRoundE, pure, Except.pure]
    simp [bind, Except.bind, hys, hzs, pure, Except.pure]

lemma encryptE_ok_alpha (sbox text : List Char) (hs : sbox.length = 27)
    (hsa : ∀ d ∈ sbox, d ∈ alphabet) (ht : text ≠ [])
    (hta : ∀ d ∈ text, d ∈ alphabet) :
    ∃ ys, encryptE sbox text = .ok ys ∧ ys.length = (pad3 text).length ∧
      ∀ d ∈ ys, d ∈ alphabet := by
  have hpne : pad3 text ≠ [] := by
    unfold pad3
    split
    · intro hcon
      exact ht (List.append_eq_nil.mp hcon).1
    · exact ht
  have hpmem : ∀ d ∈ pad3 text, d ∈ alphabet := by
    intro d hd
    unfold pad3 at hd
    split at hd
    · rcases List.mem_append.mp hd with hd | hd
      · exact hta d hd
      · rw [List.eq_of_mem_replicate hd]
        decide
    · exact hta d hd
  exact roundsE_ok_alpha sbox hs hsa (max 10 (pad3 text).length) (pad3 text) hpne hpmem

lemma ptxt0_length (L : Nat) (c : Char) : (ptxt0 L c).length = L := by
  unfold ptxt0
  rw [List.length_append, List.length_flatten]
  have : (List.replicate (L / 2) [c, alphabet.getD 0 'a']).map List.length =
      List.replicate (L / 2) 2 := by
    rw [List.map_replicate]
    rfl
  rw [this, List.sum_replicate, smul_eq_mul]
  split
  · simp
    omega
  · simp
    omega

lemma ptxt0_mem (L : Nat) (c : Char) (hc : c ∈ alphabet) :
    ∀ d ∈ ptxt0 L c, d ∈ alphabet := by
  intro d hd
  unfold ptxt0 at hd
  rcases List.mem_append.mp hd with hd | hd
  · rw [List.mem_flatten] at hd
    obtain ⟨l, hl, hdl⟩ := hd
    rw [List.eq_of_mem_replicate hl] at hdl
    rcases List.mem_cons.mp hdl with rfl | hdl
    · exact hc
    · simp at hdl
      rw [hdl]
      decide
  · split at hd
    · simp at hd
      rw [hd]
      exact hc
    · simp at hd

lemma ptxt1_mem (L : Nat) (c : Char) (hc : c ∈ alphabet) :
    ∀ d ∈ ptxt1 L c, d ∈ alphabet := by
  intro d hd
  unfold ptxt1 at hd
  rw [List.eq_of_mem_replicate hd]
  exact hc

lemma getD_indexOf (a : Char) (ha : a ∈ alphabet) :
    alphabet.getD (alphabet.indexOf a) 'a' = a := by
  have hlt : alphabet.indexOf a < alphabet.length := List.indexOf_lt_length.mpr ha
  rw [List.getD_eq_getElem _ _ hlt]
  exact List.getElem_indexOf hlt

/-- Extraction of one row of the relationship table from a successful
`_gen_relationship_table` run. -/
lemma genRTableE_row (sbox : List Char) (L : Nat) (c : Char) (rt : List (List Char))
    (hc : c ∈ alphabet) (hrt : genRTableE sbox L = .ok rt) :
    rowE sbox L c = .ok (rt.getD (alphabet.indexOf c) []) := by
  unfold genRTableE at hrt
  rw [← List.mapM'_eq_mapM] at hrt
  have hfa := mapM_ok_forall₂ (rowE sbox L) alphabet rt hrt
  rw [List.forall₂_iff_get] at hfa
  obtain ⟨hlen, hget⟩ := hfa
  have hidx : alphabet.indexOf c < alphabet.length := List.indexOf_lt_length.mpr hc
  have hidx2 : alphabet.indexOf c < rt.length := by omega
  have hval := hget (alphabet.indexOf c) hidx hidx2
  rw [List.get_eq_getElem, List.get_eq_getElem, List.getElem_indexOf hidx] at hval
  rw [List.getD_eq_getElem _ _ hidx2]
  exact hval

lemma midStep_ok_inv (ct0 : List Char) (j : Nat) (v : Char)
    (h : (do
        let a ← listAt ct0 (j - 1)
        let b ← listAt ct0 j
        alphabetAt2 a b) = .ok v) :
    j - 1 < ct0.length ∧ j < ct0.length ∧
      v = alphabet.getD ((alphabet.indexOf (ct0.getD (j - 1) 'a') +
        alphabet.indexOf (ct0.getD j 'a')) % 27) 'a' := by
  simp only [bind, Except.bind] at h
  cases ha : listAt ct0 (j - 1) with
  | error e => rw [ha] at h; exact Except.noConfusion h
  | ok a =>
    rw [ha] at h
    simp only at h
    cases hb : listAt ct0 j with
    | error e => rw [hb] at h; exact Except.noConfusion h
    | ok b =>
      rw [hb] at h
      simp only at h
      obtain ⟨hlt1, hv1⟩ := listAt_ok_inv _ _ _ ha
      obtain ⟨hlt2, hv2⟩ := listAt_ok_inv _ _ _ hb
      obtain ⟨-, -, hv⟩ := alphabetAt2_ok_inv a b v h
      exact ⟨hlt1, hlt2, by rw [hv, ← hv1, ← hv2]⟩

/-- C8: for every alphabet symbol `c` with `ctxt0 = encrypt(ptxt0)`, the
in-half of relationship-table row `idx(c)` is the symbol whose alphabet index
is `idx(ctxt0[0])` (that is, `ctxt0[0]` itself), followed, for
`j = 1 .. L-1`, by the alphabet symbol at index
`(idx(ctxt0[j-1]) + idx(ctxt0[j])) mod 27`. -/
theorem C8_inhalf_row (sbox : List Char) (L : Nat) (c : Char) (rt : List (List Char))
    (ct0 : List Char) (hs1 : sbox.length = 27) (hs2 : ∀ d ∈ sbox, d ∈ alphabet)
    (hL : 1 ≤ L) (hc : c ∈ alphabet)
    (hrt : genRTableE sbox L = .ok rt)
    (hct : encryptE sbox (ptxt0 L c) = .ok ct0) :
    (rt.getD (alphabet.indexOf c) []).take L =
      alphabet.getD (alphabet.indexOf (ct0.getD 0 'a')) 'a' ::
        (List.range' 1 (L - 1)).map (fun j =>
          alphabet.getD
            ((alphabet.indexOf (ct0.getD (j - 1) 'a') +
              alphabet.indexOf (ct0.getD j 'a')) % 27) 'a') := by
  have hrow := genRTableE_row sbox L c rt hc hrt
  unfold rowE at hrow
  rw [hct] at hrow
  simp only [bind, Except.bind] at hrow
  cases hct1 : encryptE sbox (ptxt1 L c) with
  | error e => rw [hct1] at hrow; exact Except.noConfusion hrow
  | ok ct1 =>
    rw [hct1] at hrow
    simp only at hrow
    cases he0 : listAt ct0 0 with
    | error e => rw [he0] at hrow; exact Except.noConfusion hrow
    | ok e0 =>
      rw [he0] at hrow
      simp only [← List.mapM'_eq_mapM] at hrow
      cases hmid : (List.range' 1 (L - 1)).mapM' (fun j => do
          let a ← listAt ct0 (j - 1)
          let b ← listAt ct0 j
          alphabetAt2 a b) with
      | error e =>
        simp only [bind, Except.bind] at hmid
        rw [hmid] at hrow
        exact Except.noConfusion hrow
      | ok mid =>
        have hmid' := hmid
        simp only [bind, Except.bind] at hmid'
        rw [hmid'] at hrow
        simp only [pure, Except.pure] at hrow
        have hroweq : e0 :: (mid ++ unpermute ct1) = rt.getD (alphabet.indexOf c) [] :=
          Except.ok.inj hrow
        obtain ⟨h0lt, he0v⟩ := listAt_ok_inv ct0 0 e0 he0
        have hfa := mapM_ok_forall₂ _ _ _ hmid
        rw [List.forall₂_iff_get] at hfa
        obtain ⟨hmlen, hmget⟩ := hfa
        have hmidlen : mid.length = L - 1 := by
          rw [← hmlen]
          simp
        -- the first entry is an alphabet symbol, so it equals the alphabet
        -- symbol at its own index
        have hct0mem : ∀ d ∈ ct0, d ∈ alphabet := by
          have hne : ptxt0 L c ≠ [] := by
            intro hcon
            have := ptxt0_length L c
            rw [hcon] at this
            simp at this
            omega
          obtain ⟨ys, henc, -, hmem⟩ :=
            encryptE_ok_alpha sbox (ptxt0 L c) hs1 hs2 hne (ptxt0_mem L c hc)
          rw [hct] at henc
          rw [Except.ok.inj henc]
          exact hmem
        have he0alpha : ct0.getD 0 'a' ∈ alphabet := by
          rw [List.getD_eq_getElem _ _ h0lt]
          exact hct0mem _ (List.getElem_mem h0lt)
        rw [← hroweq]
        obtain ⟨k, rfl⟩ : ∃ k, L = k + 1 := ⟨L - 1, by omega⟩
        rw [List.take_succ_cons]
        have htake : (mid ++ unpermute ct1).take k = mid := by
          rw [List.take_left']
          rw [hmidlen]
          omega
      -- hmm: take_left' needs mid.length = k
        rw [htake]
        congr 1
        · rw [getD_indexOf _ he0alpha, he0v]
        · apply List.ext_getElem
          · rw [hmidlen]
            simp
          · intro t ht1 ht2
            have htb : t < k := by
              rw [hmidlen] at ht1
              omega
            have hrb : t < (List.range' 1 (k + 1 - 1)).length := by
              simp
              omega
            have hval := hmget t (by simpa using hrb) (by omega)
            rw [List.get_eq_getElem, List.get_eq_getElem, List.getElem_range'] at hval
            obtain ⟨-, -, hv⟩ := midStep_ok_inv ct0 (1 + 1 * t) mid[t] hval
            rw [List.getElem_map, List.getElem_range']
            have e1 : 1 + 1 * t - 1 = t := by omega
            rw [e1] at hv
            rw [hv]
            simp only [e1]

/-- Witness for C8 at the concrete key `sb1`, input length 3, symbol `'a'`
(there `ctxt0 = encrypt('aaa') = 'pip'`). -/
theorem C8_witness :
    (rtSb1.getD (alphabet.indexOf 'a') []).take 3 =
      alphabet.getD (alphabet.indexOf ((['p', 'i', 'p'] : List Char).getD 0 'a')) 'a' ::
        (List.range' 1 (3 - 1)).map (fun j =>
          alphabet.getD
            ((alphabet.indexOf ((['p', 'i', 'p'] : List Char).getD (j - 1) 'a') +
              alphabet.indexOf ((['p', 'i', 'p'] : List Char).getD j 'a')) % 27) 'a') :=
  C8_inhalf_row sb1 3 'a' rtSb1 ['p', 'i', 'p'] (by decide) (by decide) (by decide)
    (by decide) genRTableE_sb1 (by decide)



/-- Replay the recorded partial-key writes over an initial key. -/
def applyTrace (tr : List (Nat × Char × Char)) (sb : List Char) : List Char :=
  tr.foldl (fun sb e => sb.set e.1 e.2.2) sb

/-- Slot `alpha_index(c)` of a partial key still holds the placeholder. -/
def SlotFree (sbox : List Char) (c : Char) : Prop :=
  sbox.getD (alphabet.indexOf c) '.' = '.'

/-- Some input set of the frequency dict contains `x`. -/
def InsMem (fd : Freqs) (x : Char) : Prop :=
  ∃ p ∈ fd, ∃ q ∈ p.2, x ∈ q.1

/-- Some output set of the frequency dict contains `y`. -/
def OutsMem (fd : Freqs) (y : Char) : Prop :=
  ∃ p ∈ fd, ∃ q ∈ p.2, y ∈ q.2

/-- The unconditional invariant of the cracker state: the partial key keeps
the alphabet's length, holds only alphabet symbols or placeholders, and is
exactly the replay of the recorded commits over the fresh all-placeholder key;
each recorded commit wrote an alphabet symbol over a placeholder, and no slot
is recorded twice. -/
structure InvCore (s : EState) : Prop where
  len : s.sbox.length = alphabet.length
  slots : ∀ d ∈ s.sbox, d ∈ alphabet ∨ d = '.'
  tr : ∀ e ∈ s.trace, e.2.1 = '.' ∧ e.2.2 ∈ alphabet ∧ e.1 < alphabet.length ∧
    s.sbox.getD e.1 '.' ≠ '.'
  tr_nodup : (s.trace.map Prod.fst).Nodup
  build : s.sbox = applyTrace s.trace (List.replicate alphabet.length '.')

/-- The additional invariant of a state that has not raised: the remaining
pool is duplicate-free and only holds symbols with a free slot, every symbol
in an input set has a free slot, and every symbol in an output set is an
alphabet symbol. -/
structure InvLive (s : EState) : Prop where
  rem_nodup : s.remaining.Nodup
  rem_free : ∀ c ∈ s.remaining, SlotFree s.sbox c
  ins_free : ∀ x, InsMem s.freqs x → SlotFree s.sbox x
  outs_alpha : ∀ y, OutsMem s.freqs y → y ∈ alphabet

/-- The engine invariant. -/
def Inv (s : EState) : Prop := InvCore s ∧ (s.err = none → InvLive s)

/-- Precondition of a pending engine call: an `_add_mapping(c1, c2)` call only
targets a free slot and only writes an alphabet symbol. -/
def CallOK : ECall → EState → Prop
  | .add c1 c2, s => SlotFree s.sbox c1 ∧ c2 ∈ alphabet
  | .analyze, _ => True

/-- Every relationship-table entry is an alphabet symbol. -/
def CtxOK (ctx : Ctx) : Prop := ∀ row ∈ ctx.rtable, ∀ d ∈ row, d ∈ alphabet

lemma getD_set_self (l : List Char) (i : Nat) (a : Char) (h : i < l.length) :
    (l.set i a).getD i '.' = a := by
  rw [List.getD_eq_getElem?_getD, List.getElem?_set_self', List.getElem?_eq_getElem h]
  rfl

lemma getD_set_ne (l : List Char) (i j : Nat) (a : Char) (h : i ≠ j) :
    (l.set i a).getD j '.' = l.getD j '.' := by
  rw [List.getD_eq_getElem?_getD, List.getElem?_set_ne h, ← List.getD_eq_getElem?_getD]

lemma getD_replicate_dot (n i : Nat) : (List.replicate n '.').getD i '.' = '.' := by
  by_cases h : i < n
  · rw [List.getD_eq_getElem _ _ (by simpa using h)]
    exact List.getElem_replicate ..
  · exact List.getD_eq_default _ _ (by simpa using Nat.le_of_not_lt h)

lemma headD_mem (l : List Char) (h : l ≠ []) : l.headD '.' ∈ l := by
  cases l with
  | nil => exact absurd rfl h
  | cons a t => exact List.mem_cons_self a t

lemma indexOf_eq_of_indexOf_eq (x c : Char) (hc : c ∈ alphabet)
    (h : alphabet.indexOf x = alphabet.indexOf c) : x = c := by
  by_cases hx : x ∈ alphabet
  · exact (List.indexOf_inj hx hc).mp h
  · exfalso
    have h1 : alphabet.indexOf x = alphabet.length := List.indexOf_eq_length.mpr hx
    have h2 : alphabet.indexOf c < alphabet.length := List.indexOf_lt_length.mpr hc
    omega

lemma slotFree_set (sbox : List Char) (hlen : sbox.length = alphabet.length)
    (c1 c2 x : Char) (hc1 : c1 ∈ alphabet) (hx : x ≠ c1) (h : SlotFree sbox x) :
    SlotFree (sbox.set (alphabet.indexOf c1) c2) x := by
  by_cases hxa : x ∈ alphabet
  · have hne : alphabet.indexOf c1 ≠ alphabet.indexOf x := by
      intro he
      exact hx (indexOf_eq_of_indexOf_eq x c1 hc1 he.symm)
    unfold SlotFree at h ⊢
    rw [getD_set_ne _ _ _ _ hne]
    exact h
  · unfold SlotFree
    apply List.getD_eq_default
    rw [List.length_set, hlen]
    exact le_of_eq (List.indexOf_eq_length.mpr hxa).symm

lemma inv_poison (s : EState) (e : Err) (h : Inv s) : Inv (poison s e) := by
  refine ⟨?_, ?_⟩
  · obtain ⟨hc, -⟩ := h
    exact ⟨hc.len, hc.slots, hc.tr, hc.tr_nodup, hc.build⟩
  · intro he
    simp [poison] at he

/-- The list a pair scan leaves behind, in either outcome. -/
def pairScanOut : PairScan → List FPair
  | .dropped l => l
  | .done l => l

/-- The dict a key scan leaves behind, in either outcome. -/
def keyScanOut : KeyScan → Freqs
  | .restart fd => fd
  | .finished fd => fd

lemma rmPairs_sub (c1 c2 : Char) : ∀ l : List FPair,
    (∀ x, (∃ q ∈ pairScanOut (rmPairs c1 c2 l), x ∈ q.1) → ∃ q ∈ l, x ∈ q.1) ∧
    (∀ y, (∃ q ∈ pairScanOut (rmPairs c1 c2 l), y ∈ q.2) → ∃ q ∈ l, y ∈ q.2) := by
  intro l
  induction l with
  | nil => simp [rmPairs, pairScanOut]
  | cons p rest ih =>
    obtain ⟨ins, outs⟩ := p
    simp only [rmPairs]
    by_cases he : (sdiscard ins c1).isEmpty = true
    · rw [if_pos he]
      constructor
      · rintro x ⟨q, hq, hx⟩
        exact ⟨q, List.mem_cons_of_mem _ hq, hx⟩
      · rintro y ⟨q, hq, hy⟩
        exact ⟨q, List.mem_cons_of_mem _ hq, hy⟩
    · rw [if_neg he]
      cases hr : rmPairs c1 c2 rest with
      | dropped rest' =>
        have ihx := (hr ▸ ih : _)
        simp only [pairScanOut] at ihx ⊢
        constructor
        · rintro x ⟨q, hq, hx⟩
          rcases List.mem_cons.mp hq with rfl | hq
          · exact ⟨(ins, outs), List.mem_cons_self _ _,
              (List.mem_filter.mp hx).1⟩
          · obtain ⟨q', hq', hx'⟩ := ihx.1 x ⟨q, hq, hx⟩
            exact ⟨q', List.mem_cons_of_mem _ hq', hx'⟩
        · rintro y ⟨q, hq, hy⟩
          rcases List.mem_cons.mp hq with rfl | hq
          · exact ⟨(ins, outs), List.mem_cons_self _ _,
              (List.mem_filter.mp hy).1⟩
          · obtain ⟨q', hq', hy'⟩ := ihx.2 y ⟨q, hq, hy⟩
            exact ⟨q', List.mem_cons_of_mem _ hq', hy'⟩
      | done rest' =>
        have ihx := (hr ▸ ih : _)
        simp only [pairScanOut] at ihx ⊢
        constructor
        · rintro x ⟨q, hq, hx⟩
          rcases List.mem_cons.mp hq with rfl | hq
          · exact ⟨(ins, outs), List.mem_cons_self _ _,
              (List.mem_filter.mp hx).1⟩
          · obtain ⟨q', hq', hx'⟩ := ihx.1 x ⟨q, hq, hx⟩
            exact ⟨q', List.mem_cons_of_mem _ hq', hx'⟩
        · rintro y ⟨q, hq, hy⟩
          rcases List.mem_cons.mp hq with rfl | hq
          · exact ⟨(ins, outs), List.mem_cons_self _ _,
              (List.mem_filter.mp hy).1⟩
          · obtain ⟨q', hq', hy'⟩ := ihx.2 y ⟨q, hq, hy⟩
            exact ⟨q', List.mem_cons_of_mem _ hq', hy'⟩

lemma rmKeys_sub (c1 c2 : Char) : ∀ fd : Freqs,
    (∀ x, InsMem (keyScanOut (rmKeys c1 c2 fd)) x → InsMem fd x) ∧
    (∀ y, OutsMem (keyScanOut (rmKeys c1 c2 fd)) y → OutsMem fd y) := by
  intro fd
  induction fd with
  | nil => simp [rmKeys, keyScanOut, InsMem, OutsMem]
  | cons p rest ih =>
    obtain ⟨f, l⟩ := p
    simp only [rmKeys]
    cases hr : rmPairs c1 c2 l with
    | dropped l' =>
      have hsub := rmPairs_sub c1 c2 l
      rw [hr] at hsub
      simp only [pairScanOut] at hsub
      simp only [keyScanOut]
      constructor
      · rintro x ⟨p, hp, q, hq, hx⟩
        rcases List.mem_cons.mp hp with rfl | hp
        · obtain ⟨q', hq', hx'⟩ := hsub.1 x ⟨q, hq, hx⟩
          exact ⟨(f, l), List.mem_cons_self _ _, q', hq', hx'⟩
        · exact ⟨p, List.mem_cons_of_mem _ hp, q, hq, hx⟩
      · rintro y ⟨p, hp, q, hq, hy⟩
        rcases List.mem_cons.mp hp with rfl | hp
        · obtain ⟨q', hq', hy'⟩ := hsub.2 y ⟨q, hq, hy⟩
          exact ⟨(f, l), List.mem_cons_self _ _, q', hq', hy'⟩
        · exact ⟨p, List.mem_cons_of_mem _ hp, q, hq, hy⟩
    | done l' =>
      have hsub := rmPairs_sub c1 c2 l
      rw [hr] at hsub
      simp only [pairScanOut] at hsub
      dsimp only
      by_cases hle : l'.isEmpty = true
      · rw [if_pos hle]
        simp only [keyScanOut]
        constructor
        · rintro x ⟨p, hp, q, hq, hx⟩
          exact ⟨p, List.mem_cons_of_mem _ hp, q, hq, hx⟩
        · rintro y ⟨p, hp, q, hq, hy⟩
          exact ⟨p, List.mem_cons_of_mem _ hp, q, hq, hy⟩
      · rw [if_neg hle]
        cases hk : rmKeys c1 c2 rest with
        | restart fd' =>
          have ihx := ih
          rw [hk] at ihx
          simp only [keyScanOut] at ihx ⊢
          constructor
          · rintro x ⟨p, hp, q, hq, hx⟩
            rcases List.mem_cons.mp hp with rfl | hp
            · obtain ⟨q', hq', hx'⟩ := hsub.1 x ⟨q, hq, hx⟩
              exact ⟨(f, l), List.mem_cons_self _ _, q', hq', hx'⟩
            · obtain ⟨p', hp', q', hq', hx'⟩ := ihx.1 x ⟨p, hp, q, hq, hx⟩
              exact ⟨p', List.mem_cons_of_mem _ hp', q', hq', hx'⟩
          · rintro y ⟨p, hp, q, hq, hy⟩
            rcases List.mem_cons.mp hp with rfl | hp
            · obtain ⟨q', hq', hy'⟩ := hsub.2 y ⟨q, hq, hy⟩
              exact ⟨(f, l), List.mem_cons_self _ _, q', hq', hy'⟩
            · obtain ⟨p', hp', q', hq', hy'⟩ := ihx.2 y ⟨p, hp, q, hq, hy⟩
              exact ⟨p', List.mem_cons_of_mem _ hp', q', hq', hy'⟩
        | finished fd' =>
          have ihx := ih
          rw [hk] at ihx
          simp only [keyScanOut] at ihx ⊢
          constructor
          · rintro x ⟨p, hp, q, hq, hx⟩
            rcases List.mem_cons.mp hp with rfl | hp
            · obtain ⟨q', hq', hx'⟩ := hsub.1 x ⟨q, hq, hx⟩
              exact ⟨(f, l), List.mem_cons_self _ _, q', hq', hx'⟩
            · obtain ⟨p', hp', q', hq', hx'⟩ := ihx.1 x ⟨p, hp, q, hq, hx⟩
              exact ⟨p', List.mem_cons_of_mem _ hp', q', hq', hx'⟩
          · rintro y ⟨p, hp, q, hq, hy⟩
            rcases List.mem_cons.mp hp with rfl | hp
            · obtain ⟨q', hq', hy'⟩ := hsub.2 y ⟨q, hq, hy⟩
              exact ⟨(f, l), List.mem_cons_self _ _, q', hq', hy'⟩
            · obtain ⟨p', hp', q', hq', hy'⟩ := ihx.2 y ⟨p, hp, q, hq, hy⟩
              exact ⟨p', List.mem_cons_of_mem _ hp', q', hq', hy'⟩

lemma rmLoop_sub (c1 c2 : Char) : ∀ (n : Nat) (fd : Freqs),
    (∀ x, InsMem (rmLoop c1 c2 n fd) x → InsMem fd x) ∧
    (∀ y, OutsMem (rmLoop c1 c2 n fd) y → OutsMem fd y) := by
  intro n
  induction n with
  | zero => intro fd; exact ⟨fun x h => h, fun y h => h⟩
  | succ n ih =>
    intro fd
    simp only [rmLoop]
    cases hk : rmKeys c1 c2 fd with
    | finished fd' =>
      have hsub := rmKeys_sub c1 c2 fd
      rw [hk] at hsub
      simp only [keyScanOut] at hsub
      exact hsub
    | restart fd' =>
      have hsub := rmKeys_sub c1 c2 fd
      rw [hk] at hsub
      simp only [keyScanOut] at hsub
      exact ⟨fun x h => hsub.1 x ((ih fd').1 x h), fun y h => hsub.2 y ((ih fd').2 y h)⟩

lemma removeFromFreqs_sub (c1 c2 : Char) (fd : Freqs) :
    (∀ x, InsMem (removeFromFreqs c1 c2 fd) x → InsMem fd x) ∧
    (∀ y, OutsMem (removeFromFreqs c1 c2 fd) y → OutsMem fd y) :=
  rmLoop_sub c1 c2 (fdSize fd + 1) fd

lemma not_insMem_removeFromFreqs (c1 c2 : Char) (fd : Freqs) :
    ¬ InsMem (removeFromFreqs c1 c2 fd) c1 := by
  rintro ⟨p, hp, q, hq, hx⟩
  exact ((removeFromFreqs_clean c1 c2 fd p hp).2 q hq).2.1 hx

lemma commit_core (c1 c2 : Char) (s : EState) (hc1 : c1 ∈ alphabet)
    (hc2 : c2 ∈ alphabet) (hfree : SlotFree s.sbox c1) (hcore : InvCore s) :
    InvCore (commitState c1 c2 s) := by
  have hidx : alphabet.indexOf c1 < alphabet.length := List.indexOf_lt_length.mpr hc1
  have hidx' : alphabet.indexOf c1 < s.sbox.length := by rw [hcore.len]; exact hidx
  have hc2ne : c2 ≠ '.' := by
    intro h
    rw [h] at hc2
    exact absurd hc2 (by decide)
  refine ⟨?_, ?_, ?_, ?_, ?_⟩
  · show (s.sbox.set _ c2).length = _
    rw [List.length_set]
    exact hcore.len
  · intro d hd
    rcases List.mem_or_eq_of_mem_set hd with hd | rfl
    · exact hcore.slots d hd
    · exact Or.inl hc2
  · intro e he
    rcases List.mem_append.mp he with he | he
    · obtain ⟨h1, h2, h3, h4⟩ := hcore.tr e he
      refine ⟨h1, h2, h3, ?_⟩
      show (s.sbox.set _ c2).getD e.1 '.' ≠ '.'
      by_cases hij : alphabet.indexOf c1 = e.1
      · rw [← hij, getD_set_self _ _ _ hidx']
        exact hc2ne
      · rw [getD_set_ne _ _ _ _ hij]
        exact h4
    · simp only [List.mem_singleton] at he
      subst he
      refine ⟨hfree, hc2, hidx, ?_⟩
      show (s.sbox.set _ c2).getD _ '.' ≠ '.'
      rw [getD_set_self _ _ _ hidx']
      exact hc2ne
  · show ((s.trace ++ [(alphabet.indexOf c1, s.sbox.getD (alphabet.indexOf c1) '.', c2)]).map
      Prod.fst).Nodup
    rw [List.map_append]
    refine List.nodup_append.mpr ⟨hcore.tr_nodup, by simp, ?_⟩
    intro a ha hb
    simp only [List.map_cons, List.map_nil, List.mem_singleton] at hb
    rw [List.mem_map] at ha
    obtain ⟨e, he, hae⟩ := ha
    have h4 := (hcore.tr e he).2.2.2
    rw [hae, hb] at h4
    exact h4 hfree
  · show s.sbox.set (alphabet.indexOf c1) c2 = applyTrace (s.trace ++ [_]) _
    have hb := hcore.build
    unfold applyTrace at hb ⊢
    rw [List.foldl_append, ← hb]
    rfl

lemma commit_erase_inv (c1 c2 : Char) (s : EState) (hc1 : c1 ∈ alphabet)
    (hc2 : c2 ∈ alphabet) (hfree : SlotFree s.sbox c1) (herr : s.err = none)
    (hinv : Inv s) : Inv (eraseState c1 (commitState c1 c2 s)) := by
  obtain ⟨hcore, hlive0⟩ := hinv
  have hlive := hlive0 herr
  have hC := commit_core c1 c2 s hc1 hc2 hfree hcore
  refine ⟨⟨hC.len, hC.slots, hC.tr, hC.tr_nodup, hC.build⟩, ?_⟩
  intro _
  refine ⟨List.Nodup.erase c1 hlive.rem_nodup, ?_, ?_, ?_⟩
  · intro c hcc
    have hc' := (List.Nodup.mem_erase_iff hlive.rem_nodup).mp hcc
    exact slotFree_set s.sbox hcore.len c1 c2 c hc1 hc'.1 (hlive.rem_free c hc'.2)
  · intro x hx
    have hx' : InsMem s.freqs x := (removeFromFreqs_sub c1 c2 s.freqs).1 x hx
    have hxne : x ≠ c1 := by
      rintro rfl
      exact not_insMem_removeFromFreqs x c2 s.freqs hx
    exact slotFree_set s.sbox hcore.len c1 c2 x hc1 hxne (hlive.ins_free x hx')
  · intro y hy
    exact hlive.outs_alpha y ((removeFromFreqs_sub c1 c2 s.freqs).2 y hy)

lemma foldl_trail_inv (next : Char → Char → EState → EState)
    (hnext : ∀ a b st, Inv st → SlotFree st.sbox a → b ∈ alphabet → Inv (next a b st)) :
    ∀ (l : List (Char × Char)) (acc : EState), (∀ pc ∈ l, pc.2 ∈ alphabet) →
      Inv acc → Inv (l.foldl (trailStep next) acc) := by
  intro l
  induction l with
  | nil => intro acc _ h; exact h
  | cons pc rest ih =>
    intro acc hmem hacc
    rw [List.foldl_cons]
    apply ih _ (fun q hq => hmem q (List.mem_cons_of_mem _ hq))
    unfold trailStep
    by_cases h1 : acc.err.isSome = true
    · rw [if_pos h1]
      exact hacc
    · rw [if_neg h1]
      by_cases h2 : pc.1 ∈ alphabet
      · rw [if_pos h2]
        by_cases h3 : alphabet.indexOf pc.1 < acc.sbox.length
        · rw [if_pos h3]
          by_cases h4 : acc.sbox.getD (alphabet.indexOf pc.1) '.' = '.'
          · rw [if_pos h4]
            exact hnext pc.1 pc.2 acc hacc h4 (hmem pc (List.mem_cons_self _ _))
          · rw [if_neg h4]
            exact hacc
        · rw [if_neg h3]
          exact inv_poison _ _ hacc
      · rw [if_neg h2]
        exact inv_poison _ _ hacc

lemma elimStep_inv (next : Char → Char → EState → EState)
    (hnext : ∀ a b st, Inv st → SlotFree st.sbox a → b ∈ alphabet → Inv (next a b st))
    (s : EState) (herr : s.err = none) (hs : Inv s) : Inv (elimStep next s) := by
  unfold elimStep
  by_cases h1 : s.remaining.length = 1
  · rw [if_pos h1]
    cases hf : alphabet.filter (fun c => decide (c ∉ s.sbox)) with
    | nil => exact inv_poison _ _ hs
    | cons c cs =>
      apply hnext _ _ _ hs
      · have hne : s.remaining ≠ [] := by
          intro h
          rw [h] at h1
          simp at h1
        exact (hs.2 herr).rem_free _ (headD_mem _ hne)
      · have hcm : c ∈ alphabet.filter (fun c => decide (c ∉ s.sbox)) := by
          rw [hf]
          exact List.mem_cons_self c cs
        exact (List.mem_filter.mp hcm).1
  · rw [if_neg h1]
    exact hs

lemma trailAnalyze_inv (ctx : Ctx) (hctx : CtxOK ctx)
    (nextAdd : Char → Char → EState → EState) (nextAnalyze : EState → EState)
    (c1 c2 : Char) (s4 : EState)
    (hAdd : ∀ a b st, Inv st → SlotFree st.sbox a → b ∈ alphabet → Inv (nextAdd a b st))
    (hAn : ∀ st, Inv st → Inv (nextAnalyze st)) (hs4 : Inv s4) :
    Inv (trailAnalyze ctx nextAdd nextAnalyze c1 c2 s4) := by
  unfold trailAnalyze
  by_cases h1 : s4.err.isSome = true
  · rw [if_pos h1]
    exact hs4
  · rw [if_neg h1]
    cases hr1 : ctx.rtable[alphabet.indexOf c1]? with
    | none => exact inv_poison _ _ hs4
    | some rowIn =>
      dsimp only
      by_cases h2 : c2 ∈ alphabet
      · rw [if_pos h2]
        cases hr2 : ctx.rtable[alphabet.indexOf c2]? with
        | none => exact inv_poison _ _ hs4
        | some rowOut =>
          dsimp only
          apply hAn
          apply foldl_trail_inv nextAdd hAdd _ _ ?_ hs4
          intro pc hpc
          obtain ⟨a, b⟩ := pc
          have hmem2 := (List.of_mem_zip hpc).2
          exact hctx rowOut (List.getElem?_mem hr2) b (List.mem_of_mem_drop hmem2)
      · rw [if_neg h2]
        exact inv_poison _ _ hs4

lemma simplePairs_hit_spec :
    ∀ (l l' : List FPair) (x y : Char) (n : Nat), simplePairs l = .hit l' x y n →
      (∀ a, (∃ q ∈ l', a ∈ q.1) → ∃ q ∈ l, a ∈ q.1) ∧
      (∀ b, (∃ q ∈ l', b ∈ q.2) → ∃ q ∈ l, b ∈ q.2) ∧
      (∃ q ∈ l, x ∈ q.1) ∧ (∃ q ∈ l, y ∈ q.2) := by
  intro l
  induction l with
  | nil =>
    intro l' x y n h
    simp [simplePairs] at h
  | cons p rest ih =>
    intro l' x y n h
    obtain ⟨ins, outs⟩ := p
    simp only [simplePairs] at h
    by_cases hlen : ins.length = 1
    · rw [if_pos hlen] at h
      cases houts : outs with
      | nil =>
        rw [houts] at h
        simp at h
      | cons y0 ytail =>
        rw [houts] at h
        simp only [SimplePairsRes.hit.injEq] at h
        obtain ⟨hl', hx, hy, -⟩ := h
        subst hl' hx hy
        have hinsne : ins ≠ [] := by
          intro hcon
          rw [hcon] at hlen
          simp at hlen
        refine ⟨?_, ?_, ?_, ?_⟩
        · rintro a ⟨q, hq, ha⟩
          rcases List.mem_cons.mp hq with rfl | hq
          · simp at ha
          · exact ⟨q, List.mem_cons_of_mem _ hq, ha⟩
        · rintro b ⟨q, hq, hb⟩
          rcases List.mem_cons.mp hq with rfl | hq
          · exact ⟨(ins, y0 :: ytail), List.mem_cons_self _ _, List.mem_cons_of_mem _ hb⟩
          · exact ⟨q, List.mem_cons_of_mem _ hq, hb⟩
        · exact ⟨(ins, y0 :: ytail), List.mem_cons_self _ _, headD_mem _ hinsne⟩
        · exact ⟨(ins, y0 :: ytail), List.mem_cons_self _ _, List.mem_cons_self _ _⟩
    · rw [if_neg hlen] at h
      cases hrec : simplePairs rest with
      | hit rest' x0 y0 n0 =>
        rw [hrec] at h
        simp only [SimplePairsRes.hit.injEq] at h
        obtain ⟨hl', hx, hy, -⟩ := h
        subst hl' hx hy
        obtain ⟨hsI, hsO, hxm, hym⟩ := ih rest' x0 y0 n0 hrec
        refine ⟨?_, ?_, ?_, ?_⟩
        · rintro a ⟨q, hq, ha⟩
          rcases List.mem_cons.mp hq with rfl | hq
          · exact ⟨(ins, outs), List.mem_cons_self _ _, ha⟩
          · obtain ⟨q', hq', ha'⟩ := hsI a ⟨q, hq, ha⟩
            exact ⟨q', List.mem_cons_of_mem _ hq', ha'⟩
        · rintro b ⟨q, hq, hb⟩
          rcases List.mem_cons.mp hq with rfl | hq
          · exact ⟨(ins, outs), List.mem_cons_self _ _, hb⟩
          · obtain ⟨q', hq', hb'⟩ := hsO b ⟨q, hq, hb⟩
            exact ⟨q', List.mem_cons_of_mem _ hq', hb'⟩
        · obtain ⟨q', hq', ha'⟩ := hxm
          exact ⟨q', List.mem_cons_of_mem _ hq', ha'⟩
        · obtain ⟨q', hq', hb'⟩ := hym
          exact ⟨q', List.mem_cons_of_mem _ hq', hb'⟩
      | hitErr rest' n0 =>
        rw [hrec] at h
        simp at h
      | miss n0 =>
        rw [hrec] at h
        simp at h

lemma simpleKeys_hit_spec :
    ∀ (fd fd' : Freqs) (x y : Char) (n : Nat), simpleKeys fd = .hit fd' x y n →
      (∀ a, InsMem fd' a → InsMem fd a) ∧ (∀ b, OutsMem fd' b → OutsMem fd b) ∧
      InsMem fd x ∧ OutsMem fd y := by
  intro fd
  induction fd with
  | nil =>
    intro fd' x y n h
    simp [simpleKeys] at h
  | cons p rest ih =>
    intro fd' x y n h
    obtain ⟨f, l⟩ := p
    simp only [simpleKeys] at h
    cases hsp : simplePairs l with
    | hit l' x0 y0 n0 =>
      rw [hsp] at h
      simp only [SimpleRes.hit.injEq] at h
      obtain ⟨hfd, hx, hy, -⟩ := h
      subst hfd hx hy
      obtain ⟨hsI, hsO, hxm, hym⟩ := simplePairs_hit_spec l l' x0 y0 n0 hsp
      refine ⟨?_, ?_, ?_, ?_⟩
      · rintro a ⟨p, hp, q, hq, ha⟩
        rcases List.mem_cons.mp hp with rfl | hp
        · obtain ⟨q', hq', ha'⟩ := hsI a ⟨q, hq, ha⟩
          exact ⟨(f, l), List.mem_cons_self _ _, q', hq', ha'⟩
        · exact ⟨p, List.mem_cons_of_mem _ hp, q, hq, ha⟩
      · rintro b ⟨p, hp, q, hq, hb⟩
        rcases List.mem_cons.mp hp with rfl | hp
        · obtain ⟨q', hq', hb'⟩ := hsO b ⟨q, hq, hb⟩
          exact ⟨(f, l), List.mem_cons_self _ _, q', hq', hb'⟩
        · exact ⟨p, List.mem_cons_of_mem _ hp, q, hq, hb⟩
      · obtain ⟨q', hq', ha'⟩ := hxm
        exact ⟨(f, l), List.mem_cons_self _ _, q', hq', ha'⟩
      · obtain ⟨q', hq', hb'⟩ := hym
        exact ⟨(f, l), List.mem_cons_self _ _, q', hq', hb'⟩
    | hitErr l' n0 =>
      rw [hsp] at h
      simp at h
    | miss n0 =>
      rw [hsp] at h
      cases hsk : simpleKeys rest with
      | hit fd0 x0 y0 n1 =>
        rw [hsk] at h
        simp only [SimpleRes.hit.injEq] at h
        obtain ⟨hfd, hx, hy, -⟩ := h
        subst hfd hx hy
        obtain ⟨hsI, hsO, hxm, hym⟩ := ih fd0 x0 y0 n1 hsk
        refine ⟨?_, ?_, ?_, ?_⟩
        · rintro a ⟨p, hp, q, hq, ha⟩
          rcases List.mem_cons.mp hp with rfl | hp
          · exact ⟨(f, l), List.mem_cons_self _ _, q, hq, ha⟩
          · obtain ⟨p', hp', q', hq', ha'⟩ := hsI a ⟨p, hp, q, hq, ha⟩
            exact ⟨p', List.mem_cons_of_mem _ hp', q', hq', ha'⟩
        · rintro b ⟨p, hp, q, hq, hb⟩
          rcases List.mem_cons.mp hp with rfl | hp
          · exact ⟨(f, l), List.mem_cons_self _ _, q, hq, hb⟩
          · obtain ⟨p', hp', q', hq', hb'⟩ := hsO b ⟨p, hp, q, hq, hb⟩
            exact ⟨p', List.mem_cons_of_mem _ hp', q', hq', hb'⟩
        · obtain ⟨p', hp', q', hq', ha'⟩ := hxm
          exact ⟨p', List.mem_cons_of_mem _ hp', q', hq', ha'⟩
        · obtain ⟨p', hp', q', hq', hb'⟩ := hym
          exact ⟨p', List.mem_cons_of_mem _ hp', q', hq', hb'⟩
      | hitErr fd0 n1 =>
        rw [hsk] at h
        simp at h
      | miss n1 =>
        rw [hsk] at h
        simp at h

lemma entriesOf_pair (fd : Freqs) (e : Nat × Nat × FPair) (he : e ∈ entriesOf fd) :
    ∃ p ∈ fd, e.2.2 ∈ p.2 := by
  unfold entriesOf at he
  rw [List.mem_flatten] at he
  obtain ⟨inner, hin, hein⟩ := he
  rw [List.mem_map] at hin
  obtain ⟨p, hp, rfl⟩ := hin
  rw [List.mem_map] at hein
  obtain ⟨q, hq, rfl⟩ := hein
  obtain ⟨i, v⟩ := q
  obtain ⟨hi, hv⟩ := List.mem_enum hq
  refine ⟨p, hp, ?_⟩
  show v ∈ p.2
  rw [hv]
  exact List.getElem_mem hi

lemma complexScan_hit_mem (fd : Freqs) (x y : Char) (m : Nat)
    (h : complexScan fd = .hit x y m) : InsMem fd x ∧ OutsMem fd y := by
  unfold complexScan at h
  obtain ⟨e1, he1, e2, he2, hg, hcs⟩ := complexScanAux_hit _ _ x y m h
  obtain ⟨p, hp, hq⟩ := entriesOf_pair fd e1 he1
  rcases hcs with ⟨hin, hne, hhd⟩ | ⟨hlen1, hdiff, hne, hhd⟩
  · constructor
    · have hx : x ∈ sinter e1.2.2.1 e2.2.2.1 := by
        rw [hin]
        exact List.mem_singleton_self x
      unfold sinter at hx
      exact ⟨p, hp, e1.2.2, hq, (List.mem_filter.mp hx).1⟩
    · have hy : y ∈ sinter e1.2.2.2 e2.2.2.2 := by
        rw [← hhd]
        exact headD_mem _ hne
      unfold sinter at hy
      exact ⟨p, hp, e1.2.2, hq, (List.mem_filter.mp hy).1⟩
  · constructor
    · have hx : x ∈ sdiff e1.2.2.1 e2.2.2.1 := by
        rw [hdiff]
        exact List.mem_singleton_self x
      unfold sdiff at hx
      exact ⟨p, hp, e1.2.2, hq, (List.mem_filter.mp hx).1⟩
    · have hy : y ∈ sdiff e1.2.2.2 e2.2.2.2 := by
        rw [← hhd]
        exact headD_mem _ hne
      unfold sdiff at hy
      exact ⟨p, hp, e1.2.2, hq, (List.mem_filter.mp hy).1⟩

lemma inv_poison_core (s : EState) (e : Err) (h : InvCore s) : Inv (poison s e) := by
  refine ⟨⟨h.len, h.slots, h.tr, h.tr_nodup, h.build⟩, ?_⟩
  intro he
  simp [poison] at he

lemma invCore_congr (s t : EState) (hsb : t.sbox = s.sbox) (htr : t.trace = s.trace)
    (h : InvCore s) : InvCore t := by
  refine ⟨?_, ?_, ?_, ?_, ?_⟩
  · rw [hsb]
    exact h.len
  · rw [hsb]
    exact h.slots
  · rw [htr, hsb]
    exact h.tr
  · rw [htr]
    exact h.tr_nodup
  · rw [hsb, htr]
    exact h.build

lemma invLive_congr (s t : EState) (hsb : t.sbox = s.sbox)
    (hrem : t.remaining = s.remaining) (hfq : t.freqs = s.freqs)
    (h : InvLive s) : InvLive t := by
  refine ⟨?_, ?_, ?_, ?_⟩
  · rw [hrem]
    exact h.rem_nodup
  · rw [hrem, hsb]
    exact h.rem_free
  · rw [hfq, hsb]
    exact h.ins_free
  · rw [hfq]
    exact h.outs_alpha

lemma engine_inv (ctx : Ctx) (hctx : CtxOK ctx) :
    ∀ (fuel : Nat) (call : ECall) (s : EState), Inv s → CallOK call s →
      Inv (engine ctx fuel call s) := by
  intro fuel
  induction fuel with
  | zero =>
    intro call s hinv _
    simp only [engine]
    by_cases h : s.err.isSome = true
    · rw [if_pos h]
      exact hinv
    · rw [if_neg h]
      exact inv_poison_core _ _ hinv.1
  | succ fuel ih =>
    intro call s hinv hok
    cases call with
    | add c1 c2 =>
      simp only [engine]
      by_cases h1 : s.err.isSome = true
      · rw [if_pos h1]
        exact hinv
      · rw [if_neg h1]
        have herr : s.err = none := Option.not_isSome_iff_eq_none.mp h1
        by_cases h2 : c1 ∈ alphabet
        · rw [if_pos h2]
          by_cases h3 : alphabet.indexOf c1 < s.sbox.length
          · rw [if_pos h3]
            have hCcore : InvCore (commitState c1 c2 s) :=
              commit_core c1 c2 s h2 hok.2 hok.1 hinv.1
            by_cases h4 : c1 ∈ (commitState c1 c2 s).remaining
            · rw [if_pos h4]
              have hE : Inv (eraseState c1 (commitState c1 c2 s)) :=
                commit_erase_inv c1 c2 s h2 hok.2 hok.1 herr hinv
              by_cases h5 : (eraseState c1 (commitState c1 c2 s)).remaining.isEmpty = true
              · rw [if_pos h5]
                exact hE
              · rw [if_neg h5]
                apply trailAnalyze_inv ctx hctx _ _ c1 c2 _
                  (fun a b st hst hf hb => ih (.add a b) st hst ⟨hf, hb⟩)
                  (fun st hst => ih .analyze st hst trivial)
                apply elimStep_inv _
                  (fun a b st hst hf hb => ih (.add a b) st hst ⟨hf, hb⟩) _ ?_ hE
                exact herr
            · rw [if_neg h4]
              exact inv_poison_core _ _ hCcore
          · rw [if_neg h3]
            exact inv_poison_core _ _ hinv.1
        · rw [if_neg h2]
          exact inv_poison_core _ _ hinv.1
    | analyze =>
      simp only [engine]
      by_cases h1 : s.err.isSome = true
      · rw [if_pos h1]
        exact hinv
      · rw [if_neg h1]
        have herr : s.err = none := Option.not_isSome_iff_eq_none.mp h1
        have hlive := hinv.2 herr
        cases hsimp : (if ctx.simple then simpleKeys s.freqs else SimpleRes.miss 0) with
        | hit fd' x y n =>
          dsimp only
          have hks : simpleKeys s.freqs = .hit fd' x y n := by
            by_cases hcs : ctx.simple
            · rwa [if_pos hcs] at hsimp
            · rw [if_neg hcs] at hsimp
              simp at hsimp
          obtain ⟨hsI, hsO, hxI, hyO⟩ := simpleKeys_hit_spec s.freqs fd' x y n hks
          apply ih (.add x y)
          · refine ⟨invCore_congr s _ rfl rfl hinv.1, ?_⟩
            intro _
            refine ⟨hlive.rem_nodup, hlive.rem_free, ?_, ?_⟩
            · intro a ha
              exact hlive.ins_free a (hsI a ha)
            · intro b hb
              exact hlive.outs_alpha b (hsO b hb)
          · exact ⟨hlive.ins_free x hxI, hlive.outs_alpha y hyO⟩
        | hitErr fd' n =>
          dsimp only
          exact inv_poison_core _ _ (invCore_congr s _ rfl rfl hinv.1)
        | miss n =>
          dsimp only
          by_cases hcr : ctx.complexRule
          · rw [if_pos hcr]
            cases hcx : complexScan s.freqs with
            | hit x y m =>
              dsimp only
              obtain ⟨hxI, hyO⟩ := complexScan_hit_mem s.freqs x y m hcx
              apply ih (.add x y)
              · exact ⟨invCore_congr s _ rfl rfl hinv.1,
                  fun _ => invLive_congr s _ rfl rfl rfl hlive⟩
              · exact ⟨hlive.ins_free x hxI, hlive.outs_alpha y hyO⟩
            | hitErr m =>
              dsimp only
              exact inv_poison_core _ _ (invCore_congr s _ rfl rfl hinv.1)
            | miss m =>
              dsimp only
              exact ⟨invCore_congr s _ rfl rfl hinv.1,
                fun _ => invLive_congr s _ rfl rfl rfl hlive⟩
          · rw [if_neg hcr]
            exact ⟨invCore_congr s _ rfl rfl hinv.1,
              fun _ => invLive_congr s _ rfl rfl rfl hlive⟩

lemma pad3_ge (text : List Char) : text.length ≤ (pad3 text).length := by
  unfold pad3
  split
  · rw [List.length_append]
    omega
  · exact le_refl _

lemma pad3_dvd (text : List Char) : 3 ∣ (pad3 text).length := by
  unfold pad3 blocksize
  split
  · next hne =>
    rw [List.length_append, List.length_replicate]
    have := Nat.mod_lt text.length (show 0 < 3 by decide)
    omega
  · next hmod =>
    simp only [ne_eq, Decidable.not_not] at hmod
    omega

lemma encryptE_nil (sbox : List Char) : encryptE sbox [] = .error .oob := rfl

lemma unpermute_length (l : List Char) (h : 3 ∣ l.length) :
    (unpermute l).length = l.length := by
  obtain ⟨m, hm⟩ := h
  unfold unpermute blocksize
  rw [List.length_flatten, List.map_map]
  rcases Nat.eq_zero_or_pos m with rfl | hmpos
  · simp [hm]
  · have hdiv : l.length / 3 = m := by
      rw [hm]
      exact Nat.mul_div_cancel_left m (by decide)
    rw [hdiv]
    have hconst : (List.range m).map
        (List.length ∘ fun i =>
          (pyRange (m + i) (l.length + m) m).map (fun j => l.getD (j % l.length) 'a')) =
        List.replicate m 3 := by
      rw [List.eq_replicate_iff]
      refine ⟨by simp, ?_⟩
      intro b hb
      rw [List.mem_map] at hb
      obtain ⟨i, hi, rfl⟩ := hb
      rw [List.mem_range] at hi
      simp only [Function.comp, List.length_map]
      unfold pyRange
      rw [List.length_range']
      have e1 : l.length + m - (m + i) + m - 1 = (m - i - 1) + 3 * m := by omega
      rw [e1]
      exact add_mul_div_self _ _ _ hmpos (by omega)
    rw [hconst, List.sum_replicate, smul_eq_mul, hm]
    omega

lemma unpermute_mem (l : List Char) (c : Char) (h : c ∈ unpermute l) : c ∈ l := by
  cases hl : l with
  | nil =>
    subst hl
    simp [unpermute] at h
  | cons a t =>
    have hpos : 0 < l.length := by
      rw [hl]
      simp
    rw [← hl]
    unfold unpermute at h
    rw [List.mem_flatten] at h
    obtain ⟨inner, hin, hc⟩ := h
    rw [List.mem_map] at hin
    obtain ⟨i, hi, rfl⟩ := hin
    rw [List.mem_map] at hc
    obtain ⟨j, hj, rfl⟩ := hc
    have hlt : j % l.length < l.length := Nat.mod_lt _ hpos
    rw [List.getD_eq_getElem _ _ hlt]
    exact List.getElem_mem hlt

lemma alphabetAt2_ok (a b : Char) (ha : a ∈ alphabet) (hb : b ∈ alphabet) :
    ∃ v, alphabetAt2 a b = .ok v ∧ v ∈ alphabet := by
  have hlt : (alphabet.indexOf a + alphabet.indexOf b) % alphabet.length <
      alphabet.length := Nat.mod_lt _ (by decide)
  refine ⟨alphabet[(alphabet.indexOf a + alphabet.indexOf b) % alphabet.length], ?_,
    List.getElem_mem hlt⟩
  simp [alphabetAt2, alphaIndex2, alphaIndex1, ha, hb, listAt_ok _ _ hlt,
    bind, Except.bind, pure, Except.pure]

lemma rowE_ok_props (sbox : List Char) (L : Nat) (c : Char) (row : List Char)
    (hs1 : sbox.length = 27) (hs2 : ∀ d ∈ sbox, d ∈ alphabet) (hc : c ∈ alphabet)
    (h : rowE sbox L c = .ok row) :
    2 * L ≤ row.length ∧ ∀ d ∈ row, d ∈ alphabet := by
  rcases Nat.eq_zero_or_pos L with rfl | hL
  · exfalso
    have hp0 : ptxt0 0 c = [] := rfl
    simp only [rowE, bind, Except.bind, hp0, encryptE_nil] at h
    exact Except.noConfusion h
  · obtain ⟨ct0, hct0, hct0len, hct0mem⟩ := encryptE_ok_alpha sbox (ptxt0 L c) hs1 hs2
      (by
        intro hcon
        have := ptxt0_length L c
        rw [hcon] at this
        simp at this
        omega) (ptxt0_mem L c hc)
    obtain ⟨ct1, hct1, hct1len, hct1mem⟩ := encryptE_ok_alpha sbox (ptxt1 L c) hs1 hs2
      (by
        intro hcon
        have : (ptxt1 L c).length = L := List.length_replicate ..
        rw [hcon] at this
        simp at this
        omega) (ptxt1_mem L c hc)
    have hc0len : L ≤ ct0.length := by
      rw [hct0len]
      calc L = (ptxt0 L c).length := (ptxt0_length L c).symm
        _ ≤ _ := pad3_ge _
    have hc1len : L ≤ ct1.length := by
      rw [hct1len]
      calc L = (ptxt1 L c).length := (List.length_replicate ..).symm
        _ ≤ _ := pad3_ge _
    have h0lt : 0 < ct0.length := by omega
    have hstep : ∀ j ∈ List.range' 1 (L - 1), ∃ v, (do
        let a ← listAt ct0 (j - 1)
        let b ← listAt ct0 j
        alphabetAt2 a b) = .ok v ∧ v ∈ alphabet := by
      intro j hj
      rw [List.mem_range'] at hj
      obtain ⟨t, ht, rfl⟩ := hj
      have e1 : 1 + 1 * t - 1 = t := by omega
      have e2 : 1 + 1 * t = t + 1 := by omega
      rw [e1, e2]
      have hb1 : t < ct0.length := by omega
      have hb2 : t + 1 < ct0.length := by omega
      obtain ⟨v, hv, hva⟩ := alphabetAt2_ok ct0[t] ct0[t + 1]
        (hct0mem _ (List.getElem_mem hb1)) (hct0mem _ (List.getElem_mem hb2))
      refine ⟨v, ?_, hva⟩
      rw [listAt_ok _ _ hb1, listAt_ok _ _ hb2]
      simp [bind, Except.bind, hv]
    obtain ⟨mid, hmid, hmidlen, hmidmem⟩ := mapM_all_ok _ (fun v => v ∈ alphabet) _ hstep
    simp only [rowE, bind, Except.bind] at h
    rw [hct0, hct1] at h
    simp only at h
    rw [listAt_ok _ _ h0lt] at h
    simp only at h
    rw [← List.mapM'_eq_mapM] at h
    simp only [bind, Except.bind] at hmid
    rw [hmid] at h
    simp only [pure, Except.pure, Except.ok.injEq] at h
    subst h
    constructor
    · simp only [List.length_cons, List.length_append]
      rw [hmidlen, List.length_range', unpermute_length ct1 (hct1len ▸ pad3_dvd _)]
      omega
    · intro d hd
      rcases List.mem_cons.mp hd with rfl | hd
      · exact hct0mem _ (List.getElem_mem h0lt)
      · rcases List.mem_append.mp hd with hd | hd
        · exact hmidmem d hd
        · exact hct1mem d (unpermute_mem ct1 d hd)

lemma genRTableE_props (sbox : List Char) (L : Nat) (rt : List (List Char))
    (hs1 : sbox.length = 27) (hs2 : ∀ d ∈ sbox, d ∈ alphabet)
    (h : genRTableE sbox L = .ok rt) :
    ∀ row ∈ rt, 2 * L ≤ row.length ∧ ∀ d ∈ row, d ∈ alphabet := by
  unfold genRTableE at h
  rw [← List.mapM'_eq_mapM] at h
  have hfa := mapM_ok_forall₂ (rowE sbox L) alphabet rt h
  rw [List.forall₂_iff_get] at hfa
  obtain ⟨hlen, hget⟩ := hfa
  intro row hrow
  obtain ⟨i, hi, hrw⟩ := List.mem_iff_getElem.mp hrow
  have hia : i < alphabet.length := by omega
  have hv := hget i hia hi
  rw [List.get_eq_getElem, List.get_eq_getElem, hrw] at hv
  exact rowE_ok_props sbox L alphabet[i] row hs1 hs2 (List.getElem_mem hia) hv

lemma genFrequencyDict_outs (rt : List (List Char)) (L : Nat)
    (hrt : ∀ row ∈ rt, 2 * L ≤ row.length ∧ ∀ d ∈ row, d ∈ alphabet) :
    ∀ y, OutsMem (genFrequencyDict rt L) y → y ∈ alphabet := by
  rintro y ⟨p, hp, q, hq, hy⟩
  have hmp : memPair (genFrequencyDict rt L) p.1 q := ⟨p.2, hp, hq⟩
  rw [memPair_genFrequencyDict] at hmp
  obtain ⟨i, hiL, x, hx, -, hpq⟩ := hmp
  unfold contribFor at hx
  have hx2 := (List.of_mem_zip hx).2
  rw [List.mem_map] at hx2
  obtain ⟨pr, hpr, hpr2⟩ := hx2
  have hyq : y ∈ x.2 := by
    rw [hpq] at hy
    exact hy
  have hm : memClass (colFreqDict (column rt (i + L))) pr.1 y := by
    refine ⟨pr.2, ?_, ?_⟩
    · exact hpr
    · rw [hpr2]
      exact hyq
  rw [memClass_colFreqDict] at hm
  have hcol := hm.1
  unfold column at hcol
  rw [List.mem_map] at hcol
  obtain ⟨row, hrow, hrowy⟩ := hcol
  have hlen := (hrt row hrow).1
  have hlt : i + L < row.length := by omega
  rw [List.getD_eq_getElem _ _ hlt] at hrowy
  rw [← hrowy]
  exact (hrt row hrow).2 _ (List.getElem_mem hlt)

lemma initState_inv (fd : Freqs) (houts : ∀ y, OutsMem fd y → y ∈ alphabet) :
    Inv (initState fd) := by
  constructor
  · refine ⟨?_, ?_, ?_, ?_, ?_⟩
    · exact List.length_replicate ..
    · intro d hd
      exact Or.inr (List.eq_of_mem_replicate hd)
    · intro e he
      simp [initState] at he
    · simp [initState]
    · rfl
  · intro _
    refine ⟨?_, ?_, ?_, ?_⟩
    · exact (by decide : alphabet.Nodup)
    · intro c _
      exact getD_replicate_dot ..
    · intro x _
      exact getD_replicate_dot ..
    · exact houts

lemma crack_inv (sbox : List Char) (L : Nat) (simple complexRule : Bool) (fuel : Nat)
    (hs1 : sbox.length = 27) (hs2 : ∀ d ∈ sbox, d ∈ alphabet) :
    Inv (crack sbox L simple complexRule fuel) := by
  unfold crack
  cases hg : genRTableE sbox L with
  | error e =>
    dsimp only
    apply inv_poison_core
    exact (initState_inv [] (by rintro y ⟨p, hp, -⟩; simp at hp)).1
  | ok rt =>
    dsimp only
    unfold analyzeFreqs
    have hprops := genRTableE_props sbox L rt hs1 hs2 hg
    apply engine_inv ⟨rt, L, simple, complexRule⟩ ?_ fuel .analyze _ ?_ trivial
    · intro row hrow d hd
      exact (hprops row hrow).2 d hd
    · exact initState_inv _ (genFrequencyDict_outs rt L hprops)

/-- The state the cracker is stuck in after `crack('bcdefghijklmnopqrstuvwxyz_a',
input_len=3)` with both methods enabled: nothing was deduced (empty trace,
all-placeholder key, full pool), no exception, 3 simple and 2 complex
comparisons. -/
def stuckState : EState :=
  { sbox := List.replicate 27 '.',
    remaining := alphabet,
    freqs := genFrequencyDict rtSb1 3,
    trace := [],
    cmpSimple := 3,
    cmpComplex := 2,
    err := none }

lemma crack_sb1_run : crack sb1 3 true true 1000 = stuckState := by
  unfold crack
  rw [genRTableE_sb1]
  decide

/-- C3 counterexample: with the secret key the alphabet shifted by one and
input length 3, crack() (both methods enabled) terminates without an
exception, returns a key different from the true sbox, and that key is not a
valid permutation of the 27-symbol alphabet (it is the untouched
all-placeholder key). -/
theorem C3_counterexample :
    (crack sb1 3 true true 1000).err = none ∧
    (crack sb1 3 true true 1000).sbox ≠ sb1 ∧
    ¬((crack sb1 3 true true 1000).sbox.length = 27 ∧
      (crack sb1 3 true true 1000).sbox.Nodup ∧
      ∀ d ∈ (crack sb1 3 true true 1000).sbox, d ∈ alphabet) := by
  rw [crack_sb1_run]
  exact ⟨rfl, by decide, by decide⟩

/-- C3 amended: for every valid key and every input length, the key returned
by crack() still has the alphabet's length 27, but its symbols are only
guaranteed to be alphabet symbols or the untouched placeholder dot — the
deduction engine can get stuck and leave slots unmapped, so the returned key
need not be a permutation of the alphabet. -/
theorem C3_returned_key_closure (sbox : List Char) (L : Nat) (simple complexRule : Bool)
    (fuel : Nat) (hs1 : sbox.length = 27) (hs2 : ∀ d ∈ sbox, d ∈ alphabet) :
    (crack sbox L simple complexRule fuel).sbox.length = 27 ∧
    ∀ d ∈ (crack sbox L simple complexRule fuel).sbox, d ∈ alphabet ∨ d = '.' := by
  have h := crack_inv sbox L simple complexRule fuel hs1 hs2
  refine ⟨?_, h.1.slots⟩
  rw [h.1.len]
  rfl

/-- C6: throughout any crack attempt the partial key is mutated only by
commits, one slot at a time (the final key is exactly the trace of commits
replayed over the fresh all-placeholder key), and monotonically: no slot is
committed twice, and every commit wrote a non-placeholder symbol over a slot
that still held the placeholder, so no later commit overwrites a committed
slot. -/
theorem C6_commit_monotone (sbox : List Char) (L : Nat) (simple complexRule : Bool)
    (fuel : Nat) (hs1 : sbox.length = 27) (hs2 : ∀ d ∈ sbox, d ∈ alphabet) :
    ((crack sbox L simple complexRule fuel).trace.map Prod.fst).Nodup ∧
    (∀ e ∈ (crack sbox L simple complexRule fuel).trace, e.2.1 = '.' ∧ e.2.2 ≠ '.') ∧
    (crack sbox L simple complexRule fuel).sbox =
      applyTrace (crack sbox L simple complexRule fuel).trace
        (List.replicate alphabet.length '.') := by
  have h := crack_inv sbox L simple complexRule fuel hs1 hs2
  refine ⟨h.1.tr_nodup, ?_, h.1.build⟩
  intro e he
  obtain ⟨h1, h2, -, -⟩ := h.1.tr e he
  refine ⟨h1, ?_⟩
  intro hcon
  rw [hcon] at h2
  exact absurd h2 (by decide)

/-- C6 witness at a concrete run. -/
theorem C6_commit_monotone_witness :
    ((crack sb1 3 true true 1000).trace.map Prod.fst).Nodup ∧
    (∀ e ∈ (crack sb1 3 true true 1000).trace, e.2.1 = '.' ∧ e.2.2 ≠ '.') ∧
    (crack sb1 3 true true 1000).sbox =
      applyTrace (crack sb1 3 true true 1000).trace
        (List.replicate alphabet.length '.') :=
  C6_commit_monotone sb1 3 true true 1000 (by decide) (by decide)

/-- C4 witness at a concrete input of length 6. -/
theorem C4_witness :
    3 ∣ ("abcdef".toList).length ∧
      unpermute (permute "abcdef".toList) = "abcdef".toList :=
  ⟨by decide, C4_unpermute_permute _ (by decide)⟩

/-- C3 amended witness at a concrete run. -/
theorem C3_returned_key_closure_witness :
    (crack sb1 3 true true 1000).sbox.length = 27 ∧
    ∀ d ∈ (crack sb1 3 true true 1000).sbox, d ∈ alphabet ∨ d = '.' :=
  C3_returned_key_closure sb1 3 true true 1000 (by decide) (by decide)


end QS2
